import Mathlib

/-!
# Verification of `args.go` (package `pt`)

A shallow embedding of the key-value mapping `Args`, the escaped-token scanner
`indexUnescaped` and the parser `parseClientParameters`, followed by theorems
about them.

Conventions of the embedding:

* a Go `string` is a list of bytes (`Str`);
* a Go `map[string][]string` is `Option GoMap`: `none` is the nil map, `some m`
  a map made by `make`, with `m` an association list with pairwise distinct keys;
  the value lists are values, which is exact as long as no two value slices share
  a backing array; `MemMap` models the slices as windows on backing arrays;
* a Go `error` is `Option GoError`: `none` is `nil`; the three messages built by
  `fmt.Sprintf` are the three constructors of `GoError`, each carrying the string
  that `%q` quotes;
* a run-time panic (slice or index out of range, write to a nil map) is a `Fault`,
  as is the exhaustion of the fuel that bounds the parse loop.
-/

namespace pt

/-- A Go byte. -/
abbrev Byte := UInt8

/-- A Go string: a sequence of bytes. -/
abbrev Str := List Byte

/-- The byte `'='`. -/
abbrev cEq : Byte := 61
/-- The byte `';'`. -/
abbrev cSemi : Byte := 59
/-- The byte `'\\'`. -/
abbrev cBackslash : Byte := 92

/-- Abnormal ends of a computation: the loop bound of the embedding ran out, or
the Go run time panicked. -/
inductive Fault where
  | outOfFuel
  | indexOutOfRange
  | nilMapWrite
  deriving DecidableEq

/-- The errors built in `args.go`, one constructor per message; the argument is
the string quoted by `%q`. -/
inductive GoError where
  /-- `"nothing following final escape in %q"` -/
  | danglingEscape (s : Str)
  /-- `"no equals sign in %q"` -/
  | missingEquals (frag : Str)
  /-- `"empty key in %q"` -/
  | emptyKey (frag : Str)
  deriving DecidableEq

/-! ## Go primitives -/

/-- Go `s[i:]`; panics unless `i ≤ len(s)`. -/
def sliceFrom (s : Str) (i : Nat) : Except Fault Str :=
  if i ≤ s.length then .ok (s.drop i) else .error .indexOutOfRange

/-- Go `s[i]`; panics unless `i < len(s)`. -/
def index (s : Str) (i : Nat) : Except Fault Byte :=
  match s.get? i with
  | some b => .ok b
  | none => .error .indexOutOfRange

/-- Go `s[lo:hi]`; panics unless `lo ≤ hi ≤ len(s)`. -/
def slice (s : Str) (lo hi : Nat) : Except Fault Str :=
  if lo ≤ hi ∧ hi ≤ s.length then .ok ((s.take hi).drop lo) else .error .indexOutOfRange

/-- Go `l[i]` on a slice; panics unless `i < len(l)`. -/
def elemAt {α : Type} (l : List α) (i : Nat) : Except Fault α :=
  match l.get? i with
  | some x => .ok x
  | none => .error .indexOutOfRange

/-- Go `bytes.IndexByte(b, c)`: the index of the first `c` in `b`, or `-1`. -/
def IndexByte (b : List Byte) (c : Byte) : Int :=
  if b.indexOf c < b.length then (b.indexOf c : Int) else -1

/-! ## The mapping `Args` -/

/-- A non-nil Go `map[string][]string`, as an association list. -/
abbrev GoMap := List (Str × List Str)

/-- Go `m[key]` read with the comma-ok form: `none` when the key is absent. -/
def GoMap.lookup (m : GoMap) (key : Str) : Option (List Str) :=
  match m with
  | [] => none
  | (k, vs) :: rest => if k = key then some vs else GoMap.lookup rest key

/-- Go `m[key] = vals`: replaces the entry of `key`, or makes a new one. -/
def GoMap.set (m : GoMap) (key : Str) (vals : List Str) : GoMap :=
  match m with
  | [] => [(key, vals)]
  | (k, vs) :: rest => if k = key then (k, vals) :: rest else (k, vs) :: GoMap.set rest key vals

/-- Go `type Args map[string][]string`; `none` is the nil map. -/
abbrev Args := Option GoMap

/-- Go `make(Args)`. -/
def Args.make : Args := some []

/-- Go `args[key]` in its two-result form; reading a nil map finds nothing. -/
def Args.lookup (args : Args) (key : Str) : Option (List Str) :=
  match args with
  | none => none
  | some m => m.lookup key

/-- The keys of a mapping, in the order of the association list. -/
def Args.keys (args : Args) : List Str :=
  match args with
  | none => []
  | some m => m.map Prod.fst

/-- Go `func (args Args) Get(key string) (value string, ok bool)`. The lookup
`vals, ok := args[key]` yields the empty list and `false` for an absent key; the
index expression `vals[0]` panics when `vals` is empty. -/
def Args.Get (args : Args) (key : Str) : Except Fault (Str × Bool) :=
  match args with
  | none => .ok ([], false)
  | some m =>
    let r : List Str × Bool :=
      match m.lookup key with
      | some vs => (vs, true)
      | none => ([], false)
    if !r.2 || r.1.length == 0 then .ok ([], false)
    else
      match elemAt r.1 0 with
      | .error f => .error f
      | .ok v => .ok (v, true)

/-- Go `func (args Args) Add(key, value string)`:
`args[key] = append(args[key], value)`. The result is the mapping after the call;
writing to a nil map panics. Value lists are values here: this is `Add` on maps
whose value slices share no backing array, as in every map built by `make` and
`Add`, hence in every map the parser builds. `MemMap.Add` models the slices in
memory, and agrees with this definition on such maps (`memAdd_view`). -/
def Args.Add (args : Args) (key value : Str) : Except Fault Args :=
  match args with
  | none => .error .nilMapWrite
  | some m => .ok (some (m.set key ((m.lookup key).getD [] ++ [value])))

/-! ## The scanner -/

/-- The loop of `indexUnescaped`. `s` is the whole argument (only quoted in the
error), `rest` is `s[i:]`, `i` the loop index, `unesc` the buffer. -/
def indexUnescapedLoop (s : Str) (term : List Byte) :
    Str → Nat → Str → Nat × Str × Option GoError
  | [], i, unesc => (i, unesc, none)
  | b :: rest, i, unesc =>
    -- A terminator byte?
    if IndexByte term b ≠ -1 then (i, unesc, none)
    else if b = cBackslash then
      match rest with
      | [] => (0, [], some (.danglingEscape s))
      | b2 :: rest2 => indexUnescapedLoop s term rest2 (i + 2) (unesc ++ [b2])
    else indexUnescapedLoop s term rest (i + 1) (unesc ++ [b])

/-- Go `func indexUnescaped(s string, term []byte) (int, string, error)`. -/
def indexUnescaped (s : Str) (term : List Byte) : Nat × Str × Option GoError :=
  indexUnescapedLoop s term s 0 []

/-! ## The parser -/

/-- The `for` loop of `parseClientParameters`, with the scanner as a parameter.
The state is the cursor `i` and the mapping `args`; one unit of fuel is spent per
iteration. The result is the pair `(args, err)` of the named results. -/
def parseLoop (scan : Str → List Byte → Nat × Str × Option GoError) (s : Str) :
    Nat → Nat → Args → Except Fault (Args × Option GoError)
  | 0, _, _ => .error .outOfFuel
  | fuel + 1, i, args =>
    let begin := i
    -- Read the key.
    match sliceFrom s i with
    | .error f => .error f
    | .ok sub =>
    match scan sub [cEq, cSemi] with
    | (_, _, some err) => .ok (args, some err)
    | (offset, key, none) =>
    let i := i + offset
    -- End of string or no equals sign?
    match (if i ≥ s.length then .ok true else (index s i).map (fun c => decide (c ≠ cEq))) with
    | .error f => .error f
    | .ok true =>
      match slice s begin i with
      | .error f => .error f
      | .ok frag => .ok (args, some (.missingEquals frag))
    | .ok false =>
    -- Skip the equals sign.
    let i := i + 1
    -- Read the value.
    match sliceFrom s i with
    | .error f => .error f
    | .ok sub =>
    match scan sub [cSemi] with
    | (_, _, some err) => .ok (args, some err)
    | (offset, value, none) =>
    let i := i + offset
    if key.length = 0 then
      match slice s begin i with
      | .error f => .error f
      | .ok frag => .ok (args, some (.emptyKey frag))
    else
    match args.Add key value with
    | .error f => .error f
    | .ok args =>
    if i ≥ s.length then .ok (args, none)
    else
      -- Skip the semicolon.
      parseLoop scan s fuel (i + 1) args

/-- The body of `parseClientParameters` over an arbitrary scanner. -/
def parseWith (scan : Str → List Byte → Nat × Str × Option GoError) (s : Str) :
    Except Fault (Args × Option GoError) :=
  let args := Args.make
  if s.length = 0 then .ok (args, none)
  else parseLoop scan s (s.length + 1) 0 args

/-- Go `func parseClientParameters(s string) (args Args, err error)`. -/
def parseClientParameters (s : Str) : Except Fault (Args × Option GoError) :=
  parseWith indexUnescaped s

/-- The bytes of an ASCII string literal. -/
def bytes (s : String) : Str := s.toList.map (fun c => c.toNat.toUInt8)


/-! ## Escaping, and the shape of scanned text -/

/-- Insert a backslash before every byte of `x` that lies in `set`. -/
def escapeBytes (set : List Byte) : Str → Str
  | [] => []
  | b :: x =>
    if b ∈ set then cBackslash :: b :: escapeBytes set x else b :: escapeBytes set x

/-- Escape `'='`, `';'` and the backslash. -/
def esc (x : Str) : Str := escapeBytes [cEq, cSemi, cBackslash] x

/-- Escape `';'` and the backslash. -/
def escV (x : Str) : Str := escapeBytes [cSemi, cBackslash] x

/-- Escape the backslash and the bytes of `term`. -/
def escT (term : List Byte) (x : Str) : Str := escapeBytes (cBackslash :: term) x

/-- `Consumes term raw d`: the text `raw` is made of plain bytes (neither a
terminator nor a backslash) and of escape pairs (a backslash and any byte), and
`d` is `raw` with the escaping backslashes dropped. -/
inductive Consumes (term : List Byte) : Str → Str → Prop where
  | nil : Consumes term [] []
  | plain {b : Byte} {raw d : Str} : b ∉ term → b ≠ cBackslash → Consumes term raw d →
      Consumes term (b :: raw) (b :: d)
  | escaped {b : Byte} {raw d : Str} : cBackslash ∉ term → Consumes term raw d →
      Consumes term (cBackslash :: b :: raw) (b :: d)

/-- What may follow a scanned segment: nothing, or a terminator byte. -/
def StopsAt (term : List Byte) (tail : Str) : Prop :=
  tail = [] ∨ ∃ c more, tail = c :: more ∧ c ∈ term

/-- Call `Add` for each pair, in order. -/
def addAll (args : Args) : List (Str × Str) → Except Fault Args
  | [] => .ok args
  | (k, v) :: ps =>
    match args.Add k v with
    | .error f => .error f
    | .ok args => addAll args ps

/-- The parse loop run on the text `suf` from cursor 0 with the non-nil mapping
`m`, with the fuel that `parseWith` gives it. -/
def parseFrom (suf : Str) (m : GoMap) : Except Fault (Args × Option GoError) :=
  parseLoop indexUnescaped suf (suf.length + 1) 0 (some m)

/-- The entry `esc(k)=esc(v)` of a pair. -/
def encodePair (p : Str × Str) : Str := esc p.1 ++ cEq :: esc p.2

/-- The entries of the pairs, joined by a single `';'`. -/
def encodePairs (ps : List (Str × Str)) : Str :=
  List.intercalate [cSemi] (ps.map encodePair)

/-- The values paired with `key` in `ps`, in order of appearance. -/
def valuesOf (key : Str) (ps : List (Str × Str)) : List Str :=
  (ps.filter (fun p => p.1 = key)).map Prod.snd

/-- The text `s` contains none of `'='`, `';'` and the backslash. -/
def Plain (s : Str) : Prop := ∀ b ∈ s, b ∉ [cEq, cSemi, cBackslash]

instance (s : Str) : Decidable (Plain s) := by
  unfold Plain
  infer_instance

/-- The mapping invariant: every key present has at least one value. -/
def Inv (args : Args) : Prop :=
  ∀ key vs, args.lookup key = some vs → 1 ≤ vs.length

/-- The values of a key in two mappings, one list after the other; a key absent
from both stays absent. -/
def mergeVals (x y : Option (List Str)) : Option (List Str) :=
  match x, y with
  | none, none => none
  | _, _ => some (x.getD [] ++ y.getD [])

/-! ## One iteration of the parse loop -/

/-- How one iteration of the `for` loop ends: the function returns the pair `r`,
or the iteration reaches the step "skip the semicolon" with the cursor `i` and the
mapping `args`. -/
inductive Iter where
  | ret (r : Args × Option GoError)
  | skip (i : Nat) (args : Args)

/-- The body of the `for` loop of `parseClientParameters`, from `begin = i` up to
the step "skip the semicolon", which is not carried out: the cursor handed back
by `skip` is the index of the byte that the step will skip. -/
def loopBody (scan : Str → List Byte → Nat × Str × Option GoError) (s : Str) (i : Nat)
    (args : Args) : Except Fault Iter :=
  let begin := i
  -- Read the key.
  match sliceFrom s i with
  | .error f => .error f
  | .ok sub =>
  match scan sub [cEq, cSemi] with
  | (_, _, some err) => .ok (.ret (args, some err))
  | (offset, key, none) =>
  let i := i + offset
  -- End of string or no equals sign?
  match (if i ≥ s.length then .ok true else (index s i).map (fun c => decide (c ≠ cEq))) with
  | .error f => .error f
  | .ok true =>
    match slice s begin i with
    | .error f => .error f
    | .ok frag => .ok (.ret (args, some (.missingEquals frag)))
  | .ok false =>
  -- Skip the equals sign.
  let i := i + 1
  -- Read the value.
  match sliceFrom s i with
  | .error f => .error f
  | .ok sub =>
  match scan sub [cSemi] with
  | (_, _, some err) => .ok (.ret (args, some err))
  | (offset, value, none) =>
  let i := i + offset
  if key.length = 0 then
    match slice s begin i with
    | .error f => .error f
    | .ok frag => .ok (.ret (args, some (.emptyKey frag)))
  else
  match args.Add key value with
  | .error f => .error f
  | .ok args =>
  if i ≥ s.length then .ok (.ret (args, none))
  else .ok (.skip i args)

/-! ## Value slices in memory

`Args.Add` above treats the value list of a key as a value of its own. A Go slice
is a window on a backing array, and `append` writes into that array when the
slice has spare capacity. The definitions below model `Add` on a map whose values
are such windows on a heap of backing arrays. -/

/-- A Go slice header: the backing array `arr`, the offset `off` of the first
element in it, the length, and the capacity counted from `off`. -/
structure Slice where
  arr : Nat
  off : Nat
  len : Nat
  cap : Nat
  deriving DecidableEq

/-- The backing arrays, by number; an array never changes size. -/
abbrev Heap := List (List Str)

/-- The nil slice: length and capacity 0. -/
def nilSlice : Slice := ⟨0, 0, 0, 0⟩

/-- The elements of a slice. -/
def Slice.read (h : Heap) (s : Slice) : List Str :=
  ((h.getD s.arr []).drop s.off).take s.len

/-- Go `append(s, v)` for one value. With spare capacity the value is written into
the backing array, right after the elements of `s`, and the result shares the
array; otherwise the elements are copied to a new array with room for `v` and for
`extra (len s)` more values (the growth policy of the run time is a parameter). -/
def goAppend (extra : Nat → Nat) (h : Heap) (s : Slice) (v : Str) : Heap × Slice :=
  if s.len < s.cap then
    (h.set s.arr ((h.getD s.arr []).set (s.off + s.len) v), ⟨s.arr, s.off, s.len + 1, s.cap⟩)
  else
    (h ++ [s.read h ++ v :: List.replicate (extra s.len) []],
      ⟨h.length, 0, s.len + 1, s.len + 1 + extra s.len⟩)

/-- A non-nil `map[string][]string` in memory: the heap and, for each key, the
slice header stored in the map. -/
structure MemMap where
  heap : Heap
  entries : List (Str × Slice)

/-- Go `m[key]` on the headers: `none` when the key is absent. -/
def lookupSlice (es : List (Str × Slice)) (key : Str) : Option Slice :=
  match es with
  | [] => none
  | (k, s) :: rest => if k = key then some s else lookupSlice rest key

/-- Go `m[key] = s` on the headers. -/
def setSlice (es : List (Str × Slice)) (key : Str) (s : Slice) : List (Str × Slice) :=
  match es with
  | [] => [(key, s)]
  | (k, s0) :: rest => if k = key then (k, s) :: rest else (k, s0) :: setSlice rest key s

/-- Go `make(Args)` in memory. -/
def MemMap.make : MemMap := ⟨[], []⟩

/-- Go `func (args Args) Add(key, value string)` on a non-nil map in memory:
`args[key] = append(args[key], value)`; an absent key reads as the nil slice. -/
def MemMap.Add (extra : Nat → Nat) (m : MemMap) (key value : Str) : MemMap :=
  let r := goAppend extra m.heap ((lookupSlice m.entries key).getD nilSlice) value
  ⟨r.1, setSlice m.entries key r.2⟩

/-- The mapping that a map in memory denotes: each key with the elements of its
slice. -/
def MemMap.view (m : MemMap) : GoMap :=
  m.entries.map (fun e => (e.1, e.2.read m.heap))

/-- A slice header is valid on a heap: the length is within the capacity, and the
capacity, unless 0, lies within the backing array. -/
def Slice.Valid (h : Heap) (s : Slice) : Prop :=
  s.len ≤ s.cap ∧ (s.cap = 0 ∨ (s.arr < h.length ∧ s.off + s.cap ≤ (h.getD s.arr []).length))

/-- Two slices share no cell of a backing array within their capacities. -/
def Slice.Apart (s t : Slice) : Prop :=
  s.cap = 0 ∨ t.cap = 0 ∨ s.arr ≠ t.arr ∨ s.off + s.cap ≤ t.off ∨ t.off + t.cap ≤ s.off

/-- Every slice stored in the map is valid. -/
def MemMap.WellFormed (m : MemMap) : Prop :=
  ∀ e ∈ m.entries, e.2.Valid m.heap

/-- No two slices stored in the map share backing storage. -/
def MemMap.NoAlias (m : MemMap) : Prop :=
  m.entries.Pairwise (fun e1 e2 => e1.2.Apart e2.2)

instance (h : Heap) (s : Slice) : Decidable (s.Valid h) := by
  unfold Slice.Valid
  infer_instance

instance (s t : Slice) : Decidable (s.Apart t) := by
  unfold Slice.Apart
  infer_instance

instance (m : MemMap) : Decidable m.WellFormed := by
  unfold MemMap.WellFormed
  infer_instance

instance (m : MemMap) : Decidable m.NoAlias := by
  unfold MemMap.NoAlias
  infer_instance

/-- The map `{"a": x, "b": x[:1]}` for `x := []string{"1", "2"}`: the two values
share the backing array of `x`. -/
def aliasedMap : MemMap :=
  ⟨[[bytes "1", bytes "2"]], [(bytes "a", ⟨0, 0, 2, 2⟩), (bytes "b", ⟨0, 0, 1, 2⟩)]⟩

/-! ## The scanner: lemmas -/

theorem IndexByte_ne_iff (term : List Byte) (b : Byte) : IndexByte term b ≠ -1 ↔ b ∈ term := by
  unfold IndexByte
  constructor
  · intro h
    by_contra hb
    have : ¬ (List.indexOf b term < term.length) := by
      simp [List.indexOf_lt_length, hb]
    simp [this] at h
  · intro hb
    have : List.indexOf b term < term.length := List.indexOf_lt_length.mpr hb
    simp only [this, if_true]
    omega

theorem loop_nil (s : Str) (term : List Byte) (i : Nat) (acc : Str) :
    indexUnescapedLoop s term [] i acc = (i, acc, none) := by
  simp [indexUnescapedLoop]

theorem loop_term (s : Str) (term : List Byte) (c : Byte) (more : Str) (i : Nat) (acc : Str)
    (hc : c ∈ term) : indexUnescapedLoop s term (c :: more) i acc = (i, acc, none) := by
  unfold indexUnescapedLoop
  simp [IndexByte_ne_iff, hc]

theorem loop_plain (s : Str) (term : List Byte) (b : Byte) (rest : Str) (i : Nat) (acc : Str)
    (hb : b ∉ term) (hb2 : b ≠ cBackslash) :
    indexUnescapedLoop s term (b :: rest) i acc
      = indexUnescapedLoop s term rest (i + 1) (acc ++ [b]) := by
  conv_lhs => unfold indexUnescapedLoop
  simp [IndexByte_ne_iff, hb, hb2]

theorem loop_escaped (s : Str) (term : List Byte) (b : Byte) (rest : Str) (i : Nat) (acc : Str)
    (hb : cBackslash ∉ term) :
    indexUnescapedLoop s term (cBackslash :: b :: rest) i acc
      = indexUnescapedLoop s term rest (i + 2) (acc ++ [b]) := by
  rw [indexUnescapedLoop]
  simp [IndexByte_ne_iff, hb]

theorem loop_dangling (s : Str) (term : List Byte) (i : Nat) (acc : Str)
    (hb : cBackslash ∉ term) :
    indexUnescapedLoop s term [cBackslash] i acc = (0, [], some (.danglingEscape s)) := by
  rw [indexUnescapedLoop]
  simp [IndexByte_ne_iff, hb]

/-- The loop runs through a consumed segment and stops at what follows it. -/
theorem loop_consumes {term : List Byte} {raw d : Str} (h : Consumes term raw d)
    (s tail : Str) (htail : StopsAt term tail) (i : Nat) (acc : Str) :
    indexUnescapedLoop s term (raw ++ tail) i acc = (i + raw.length, acc ++ d, none) := by
  induction h generalizing i acc with
  | nil =>
    rcases htail with rfl | ⟨c, more, rfl, hc⟩
    · simp [loop_nil]
    · simp [loop_term _ _ _ _ _ _ hc]
  | plain hb hb2 _ ih =>
    rw [List.cons_append, loop_plain _ _ _ _ _ _ hb hb2, ih]
    simp; omega
  | escaped hb _ ih =>
    rw [List.cons_append, List.cons_append, loop_escaped _ _ _ _ _ _ hb, ih]
    simp; omega

/-- The loop fails on a consumed segment followed by a lone backslash. -/
theorem loop_consumes_dangling {term : List Byte} {raw d : Str} (h : Consumes term raw d)
    (hbs : cBackslash ∉ term) (s : Str) (i : Nat) (acc : Str) :
    indexUnescapedLoop s term (raw ++ [cBackslash]) i acc = (0, [], some (.danglingEscape s)) := by
  induction h generalizing i acc with
  | nil => simpa using loop_dangling s term i acc hbs
  | plain hb hb2 _ ih => rw [List.cons_append, loop_plain _ _ _ _ _ _ hb hb2, ih]
  | escaped hb _ ih => rw [List.cons_append, List.cons_append, loop_escaped _ _ _ _ _ _ hb, ih]

theorem scan_consumes {term : List Byte} {raw d : Str} (h : Consumes term raw d)
    (tail : Str) (htail : StopsAt term tail) :
    indexUnescaped (raw ++ tail) term = (raw.length, d, none) := by
  simpa [indexUnescaped] using loop_consumes h (raw ++ tail) tail htail 0 []

theorem scan_consumes_dangling {term : List Byte} {raw d : Str} (h : Consumes term raw d)
    (hbs : cBackslash ∉ term) :
    indexUnescaped (raw ++ [cBackslash]) term
      = (0, [], some (.danglingEscape (raw ++ [cBackslash]))) := by
  simpa [indexUnescaped] using loop_consumes_dangling h hbs (raw ++ [cBackslash]) 0 []

/-- Every text splits into a consumed segment followed by nothing, by a terminator,
or by a lone final backslash. -/
theorem consumes_split (term : List Byte) (s : Str) :
    (∃ raw d tail, s = raw ++ tail ∧ Consumes term raw d ∧ StopsAt term tail) ∨
    (cBackslash ∉ term ∧ ∃ raw d, s = raw ++ [cBackslash] ∧ Consumes term raw d) := by
  suffices H : ∀ n (s : Str), s.length ≤ n →
      (∃ raw d tail, s = raw ++ tail ∧ Consumes term raw d ∧ StopsAt term tail) ∨
      (cBackslash ∉ term ∧ ∃ raw d, s = raw ++ [cBackslash] ∧ Consumes term raw d) from
    H s.length s le_rfl
  intro n
  induction n with
  | zero =>
    intro s hs
    have : s = [] := List.length_eq_zero.mp (Nat.le_zero.mp hs)
    subst this
    exact Or.inl ⟨[], [], [], rfl, .nil, Or.inl rfl⟩
  | succ n ih =>
    intro s hs
    match s, hs with
    | [], _ => exact Or.inl ⟨[], [], [], rfl, .nil, Or.inl rfl⟩
    | b :: rest, hs =>
      by_cases hb : b ∈ term
      · exact Or.inl ⟨[], [], b :: rest, rfl, .nil, Or.inr ⟨b, rest, rfl, hb⟩⟩
      by_cases hb2 : b = cBackslash
      · subst hb2
        match rest, hs with
        | [], _ => exact Or.inr ⟨hb, [], [], rfl, .nil⟩
        | b2 :: rest2, hs =>
          have hlen : rest2.length ≤ n := by simp at hs; omega
          rcases ih rest2 hlen with ⟨raw, d, tail, rfl, hc, ht⟩ | ⟨_, raw, d, rfl, hc⟩
          · exact Or.inl ⟨cBackslash :: b2 :: raw, b2 :: d, tail, rfl, .escaped hb hc, ht⟩
          · exact Or.inr ⟨hb, cBackslash :: b2 :: raw, b2 :: d, rfl, .escaped hb hc⟩
      · have hlen : rest.length ≤ n := by simp at hs; omega
        rcases ih rest hlen with ⟨raw, d, tail, rfl, hc, ht⟩ | ⟨hbt, raw, d, rfl, hc⟩
        · exact Or.inl ⟨b :: raw, b :: d, tail, rfl, .plain hb hb2 hc, ht⟩
        · exact Or.inr ⟨hbt, b :: raw, b :: d, rfl, .plain hb hb2 hc⟩

theorem consumes_append {term : List Byte} {a x b y : Str} (h1 : Consumes term a x)
    (h2 : Consumes term b y) : Consumes term (a ++ b) (x ++ y) := by
  induction h1 with
  | nil => simpa using h2
  | plain hb hb2 _ ih => exact .plain hb hb2 ih
  | escaped hb _ ih => exact .escaped hb ih

/-- Escaped text is consumed and decodes to the original. -/
theorem consumes_escapeBytes (term set : List Byte) (hsub : ∀ b ∈ term, b ∈ set)
    (hbs : cBackslash ∈ set) (hbt : cBackslash ∉ term) (x : Str) :
    Consumes term (escapeBytes set x) x := by
  induction x with
  | nil => exact .nil
  | cons b x ih =>
    unfold escapeBytes
    by_cases hb : b ∈ set
    · simp only [hb, if_true]
      exact .escaped hbt ih
    · simp only [hb, if_false]
      refine .plain (fun h => hb (hsub b h)) ?_ ih
      rintro rfl
      exact hb hbs

/-! ## The parser: lemmas -/

theorem sliceFrom_shift (pre suf : Str) (j : Nat) :
    sliceFrom (pre ++ suf) (pre.length + j) = sliceFrom suf j := by
  simp [sliceFrom]

theorem index_shift (pre suf : Str) (j : Nat) :
    index (pre ++ suf) (pre.length + j) = index suf j := by
  simp [index, List.getElem?_append_right]

theorem slice_shift (pre suf : Str) (j k : Nat) :
    slice (pre ++ suf) (pre.length + j) (pre.length + k) = slice suf j k := by
  simp only [slice, List.length_append, Nat.add_le_add_iff_left]
  split
  · congr 1
    rw [List.take_append, List.drop_append]
  · rfl

theorem ge_shift (pre suf : Str) (j : Nat) :
    (pre.length + j ≥ (pre ++ suf).length) = (j ≥ suf.length) := by
  simp

/-- The loop only looks at the text from the cursor on. -/
theorem parseLoop_shift (scan : Str → List Byte → Nat × Str × Option GoError) (pre suf : Str) :
    ∀ (f j : Nat) (args : Args),
      parseLoop scan (pre ++ suf) f (pre.length + j) args = parseLoop scan suf f j args := by
  intro f
  induction f with
  | zero => intro j args; rfl
  | succ f ih =>
    intro j args
    rw [parseLoop, parseLoop]
    simp only [sliceFrom_shift, Nat.add_assoc, index_shift, slice_shift, ge_shift, ih]

theorem parseLoop_shift_zero (scan : Str → List Byte → Nat × Str × Option GoError)
    (pre suf : Str) (f : Nat) (args : Args) :
    parseLoop scan (pre ++ suf) f pre.length args = parseLoop scan suf f 0 args := by
  simpa using parseLoop_shift scan pre suf f 0 args

theorem sliceFrom_zero (s : Str) : sliceFrom s 0 = .ok s := by
  simp [sliceFrom]

theorem sliceFrom_append (a t : Str) : sliceFrom (a ++ t) a.length = .ok t := by
  simp [sliceFrom]

theorem index_append (a : Str) (c : Byte) (t : Str) : index (a ++ c :: t) a.length = .ok c := by
  have h : (a ++ c :: t).get? a.length = some c := by
    rw [List.get?_eq_getElem?, List.getElem?_append_right (le_refl _)]
    simp
  simp only [index, h]

theorem slice_head (a t : Str) : slice (a ++ t) 0 a.length = .ok a := by
  simp [slice]

theorem consumes_nil_decoded {term : List Byte} {raw : Str} (h : Consumes term raw []) :
    raw = [] := by
  cases h; rfl

theorem stopsAt_eq (t : Str) : StopsAt [cEq, cSemi] (cEq :: t) :=
  Or.inr ⟨cEq, t, rfl, by simp⟩

theorem bs_not_mem_K : cBackslash ∉ [cEq, cSemi] := by decide

theorem bs_not_mem_V : cBackslash ∉ [cSemi] := by decide

/-- A key segment followed by the end of the text or a `';'`: no equals sign. -/
theorem parseLoop_missingEquals {kraw k : Str} (hk : Consumes [cEq, cSemi] kraw k)
    (tail : Str) (htail : StopsAt [cSemi] tail) (f : Nat) (args : Args) :
    parseLoop indexUnescaped (kraw ++ tail) (f + 1) 0 args
      = .ok (args, some (.missingEquals kraw)) := by
  have hst : StopsAt [cEq, cSemi] tail := by
    rcases htail with rfl | ⟨c, more, rfl, hc⟩
    · exact Or.inl rfl
    · exact Or.inr ⟨c, more, rfl, by simp at hc; simp [hc]⟩
  rw [parseLoop]
  simp only [sliceFrom_zero, scan_consumes hk tail hst, Nat.zero_add, slice_head]
  rcases htail with rfl | ⟨c, more, rfl, hc⟩
  · simp
  · simp at hc
    subst hc
    have hd : decide (cSemi = cEq) = false := by decide
    simp [index_append, Except.map, hd]

/-- A key segment ending in a lone backslash. -/
theorem parseLoop_danglingKey {kraw k : Str} (hk : Consumes [cEq, cSemi] kraw k)
    (f : Nat) (args : Args) :
    parseLoop indexUnescaped (kraw ++ [cBackslash]) (f + 1) 0 args
      = .ok (args, some (.danglingEscape (kraw ++ [cBackslash]))) := by
  rw [parseLoop]
  simp only [sliceFrom_zero, scan_consumes_dangling hk bs_not_mem_K]

/-- A value segment ending in a lone backslash. -/
theorem parseLoop_danglingValue {kraw k vraw v : Str} (hk : Consumes [cEq, cSemi] kraw k)
    (hv : Consumes [cSemi] vraw v) (f : Nat) (args : Args) :
    parseLoop indexUnescaped (kraw ++ cEq :: (vraw ++ [cBackslash])) (f + 1) 0 args
      = .ok (args, some (.danglingEscape (vraw ++ [cBackslash]))) := by
  rw [parseLoop]
  have h1 : sliceFrom (kraw ++ cEq :: (vraw ++ [cBackslash])) (kraw.length + 1)
      = .ok (vraw ++ [cBackslash]) := by
    have := sliceFrom_append (kraw ++ [cEq]) (vraw ++ [cBackslash])
    simpa using this
  simp only [sliceFrom_zero, scan_consumes hk _ (stopsAt_eq _), Nat.zero_add, index_append, h1,
    scan_consumes_dangling hv bs_not_mem_V]
  simp [Except.map]

/-- An entry with an empty key. -/
theorem parseLoop_emptyKey {vraw v : Str} (hv : Consumes [cSemi] vraw v)
    (tail : Str) (htail : StopsAt [cSemi] tail) (f : Nat) (args : Args) :
    parseLoop indexUnescaped (cEq :: (vraw ++ tail)) (f + 1) 0 args
      = .ok (args, some (.emptyKey (cEq :: vraw))) := by
  have hk : Consumes [cEq, cSemi] [] [] := .nil
  have h0 := scan_consumes hk (cEq :: (vraw ++ tail)) (stopsAt_eq _)
  simp only [List.nil_append, List.length_nil] at h0
  rw [parseLoop]
  have h1 : sliceFrom (cEq :: (vraw ++ tail)) 1 = .ok (vraw ++ tail) := by
    simp [sliceFrom]
  have h2 : index (cEq :: (vraw ++ tail)) 0 = .ok cEq := by simp [index]
  have h3 : slice (cEq :: (vraw ++ tail)) 0 (1 + vraw.length) = .ok (cEq :: vraw) := by
    have := slice_head (cEq :: vraw) tail
    simpa [Nat.add_comm] using this
  simp only [sliceFrom_zero, h0, Nat.zero_add, Nat.add_zero, h1, h2, scan_consumes hv tail htail, h3]
  simp [Except.map]

/-- A well-formed entry: the pair is added, and the loop ends at the end of the
text or goes on after the `';'`. -/
theorem parseLoop_entry {kraw k vraw v : Str} (hk : Consumes [cEq, cSemi] kraw k)
    (hne : k ≠ []) (hv : Consumes [cSemi] vraw v) (f : Nat) (m : GoMap) :
    parseLoop indexUnescaped (kraw ++ cEq :: vraw) (f + 1) 0 (some m)
        = .ok (some (m.set k ((m.lookup k).getD [] ++ [v])), none) ∧
    ∀ rest, parseLoop indexUnescaped (kraw ++ cEq :: (vraw ++ cSemi :: rest)) (f + 1) 0 (some m)
        = parseLoop indexUnescaped rest f 0 (some (m.set k ((m.lookup k).getD [] ++ [v]))) := by
  have hklen : ¬ (k.length = 0) := by
    intro h; exact hne (List.length_eq_zero.mp h)
  have key : ∀ tail, StopsAt [cSemi] tail →
      parseLoop indexUnescaped (kraw ++ cEq :: (vraw ++ tail)) (f + 1) 0 (some m)
        = if kraw.length + 1 + vraw.length ≥ (kraw ++ cEq :: (vraw ++ tail)).length
          then .ok (some (m.set k ((m.lookup k).getD [] ++ [v])), none)
          else parseLoop indexUnescaped (kraw ++ cEq :: (vraw ++ tail)) f
            (kraw.length + 1 + vraw.length + 1) (some (m.set k ((m.lookup k).getD [] ++ [v]))) := by
    intro tail htail
    rw [parseLoop]
    have h1 : sliceFrom (kraw ++ cEq :: (vraw ++ tail)) (kraw.length + 1) = .ok (vraw ++ tail) := by
      have := sliceFrom_append (kraw ++ [cEq]) (vraw ++ tail)
      simpa using this
    simp only [sliceFrom_zero, scan_consumes hk _ (stopsAt_eq _), Nat.zero_add, index_append, h1,
      scan_consumes hv tail htail, Args.Add]
    simp [Except.map, hklen]
  constructor
  · have := key [] (Or.inl rfl)
    have hge : kraw.length + 1 + vraw.length ≥ (kraw ++ cEq :: (vraw ++ [])).length := by
      simp; omega
    rw [if_pos hge] at this
    simpa using this
  · intro rest
    have := key (cSemi :: rest) (Or.inr ⟨cSemi, rest, rfl, by simp⟩)
    rw [this]
    have hlt : ¬ (kraw.length + 1 + vraw.length ≥ (kraw ++ cEq :: (vraw ++ cSemi :: rest)).length) := by
      simp; omega
    rw [if_neg hlt]
    have := parseLoop_shift_zero indexUnescaped (kraw ++ cEq :: (vraw ++ [cSemi])) rest f
      (some (m.set k ((m.lookup k).getD [] ++ [v])))
    have hidx : kraw.length + 1 + vraw.length + 1
        = (kraw ++ cEq :: (vraw ++ [cSemi])).length := by
      simp; omega
    rw [hidx]
    simpa using this

/-- The first entry of a text either fails, whatever the mapping and the fuel, or
is well formed and is the last one or is followed by a `';'`. -/
theorem entry_cases (suf : Str) :
    (∃ e, ∀ f args, parseLoop indexUnescaped suf (f + 1) 0 args = .ok (args, some e)) ∨
    (∃ kraw k vraw v, Consumes [cEq, cSemi] kraw k ∧ k ≠ [] ∧ Consumes [cSemi] vraw v ∧
      (suf = kraw ++ cEq :: vraw ∨ ∃ rest, suf = kraw ++ cEq :: (vraw ++ cSemi :: rest))) := by
  rcases consumes_split [cEq, cSemi] suf with ⟨kraw, k, tail, rfl, hk, ht⟩ | ⟨_, kraw, k, rfl, hk⟩
  · rcases ht with rfl | ⟨c, more, rfl, hc⟩
    · exact Or.inl ⟨_, fun f args => parseLoop_missingEquals hk [] (Or.inl rfl) f args⟩
    · simp only [List.mem_cons, List.mem_singleton, List.not_mem_nil, or_false] at hc
      rcases hc with rfl | rfl
      · rcases consumes_split [cSemi] more with ⟨vraw, v, tail, rfl, hv, ht⟩ | ⟨_, vraw, v, rfl, hv⟩
        · by_cases hne : k = []
          · subst hne
            have := consumes_nil_decoded hk
            subst this
            exact Or.inl ⟨_, fun f args => parseLoop_emptyKey hv tail ht f args⟩
          · refine Or.inr ⟨kraw, k, vraw, v, hk, hne, hv, ?_⟩
            rcases ht with rfl | ⟨c, rest, rfl, hc⟩
            · left; simp
            · simp only [List.mem_singleton] at hc
              subst hc
              exact Or.inr ⟨rest, rfl⟩
        · exact Or.inl ⟨_, fun f args => parseLoop_danglingValue hk hv f args⟩
      · exact Or.inl ⟨_, fun f args =>
          parseLoop_missingEquals hk (cSemi :: more) (Or.inr ⟨cSemi, more, rfl, by simp⟩) f args⟩
  · exact Or.inl ⟨_, fun f args => parseLoop_danglingKey hk f args⟩

/-- With fuel beyond the length of the text, the amount of fuel is irrelevant. -/
theorem parseLoop_fuel (n : Nat) : ∀ (suf : Str), suf.length ≤ n → ∀ (f1 f2 : Nat) (m : GoMap),
    suf.length < f1 → suf.length < f2 →
    parseLoop indexUnescaped suf f1 0 (some m) = parseLoop indexUnescaped suf f2 0 (some m) := by
  induction n with
  | zero =>
    intro suf hs f1 f2 m h1 h2
    obtain ⟨g1, rfl⟩ : ∃ g, f1 = g + 1 := ⟨f1 - 1, by omega⟩
    obtain ⟨g2, rfl⟩ : ∃ g, f2 = g + 1 := ⟨f2 - 1, by omega⟩
    have : suf = [] := List.length_eq_zero.mp (Nat.le_zero.mp hs)
    subst this
    have hk : Consumes [cEq, cSemi] [] [] := .nil
    have e1 := parseLoop_missingEquals hk [] (Or.inl rfl) g1 (some m)
    have e2 := parseLoop_missingEquals hk [] (Or.inl rfl) g2 (some m)
    simp only [List.append_nil] at e1 e2
    rw [e1, e2]
  | succ n ih =>
    intro suf hs f1 f2 m h1 h2
    obtain ⟨g1, rfl⟩ : ∃ g, f1 = g + 1 := ⟨f1 - 1, by omega⟩
    obtain ⟨g2, rfl⟩ : ∃ g, f2 = g + 1 := ⟨f2 - 1, by omega⟩
    rcases entry_cases suf with ⟨e, he⟩ | ⟨kraw, k, vraw, v, hk, hne, hv, rfl | ⟨rest, rfl⟩⟩
    · rw [he, he]
    · rw [(parseLoop_entry hk hne hv g1 m).1, (parseLoop_entry hk hne hv g2 m).1]
    · rw [(parseLoop_entry hk hne hv g1 m).2, (parseLoop_entry hk hne hv g2 m).2]
      simp only [List.length_append, List.length_cons] at hs h1 h2
      exact ih rest (by omega) g1 g2 _ (by omega) (by omega)

/-- The parse loop started at the beginning of `suf` on the mapping `m`, with the
fuel that `parseClientParameters` gives it. -/
theorem parseLoop_canon (suf : Str) (f : Nat) (m : GoMap) (hf : suf.length < f) :
    parseLoop indexUnescaped suf f 0 (some m)
      = parseLoop indexUnescaped suf (suf.length + 1) 0 (some m) :=
  parseLoop_fuel suf.length suf le_rfl f (suf.length + 1) m hf (Nat.lt_succ_self _)

/-! ## The parser from the start of a text -/

theorem parse_nonempty (s : Str) (hs : s ≠ []) : parseClientParameters s = parseFrom s [] := by
  have : ¬ (s.length = 0) := fun h => hs (List.length_eq_zero.mp h)
  simp [parseClientParameters, parseWith, parseFrom, Args.make, this]

theorem parse_nil : parseClientParameters [] = .ok (some [], none) := rfl

theorem parseFrom_error {suf : Str} {e : GoError}
    (he : ∀ f args, parseLoop indexUnescaped suf (f + 1) 0 args = .ok (args, some e))
    (m : GoMap) : parseFrom suf m = .ok (some m, some e) :=
  he _ _

theorem parseFrom_last {kraw k vraw v : Str} (hk : Consumes [cEq, cSemi] kraw k)
    (hne : k ≠ []) (hv : Consumes [cSemi] vraw v) (m : GoMap) :
    parseFrom (kraw ++ cEq :: vraw) m
      = .ok (some (m.set k ((m.lookup k).getD [] ++ [v])), none) :=
  (parseLoop_entry hk hne hv _ m).1

theorem parseFrom_more {kraw k vraw v : Str} (hk : Consumes [cEq, cSemi] kraw k)
    (hne : k ≠ []) (hv : Consumes [cSemi] vraw v) (rest : Str) (m : GoMap) :
    parseFrom (kraw ++ cEq :: (vraw ++ cSemi :: rest)) m
      = parseFrom rest (m.set k ((m.lookup k).getD [] ++ [v])) := by
  unfold parseFrom
  rw [(parseLoop_entry hk hne hv _ m).2]
  apply parseLoop_canon
  simp; omega

/-- After a text that parses, a `';'` starts a new entry on the mapping built so far. -/
theorem parseFrom_concat (n : Nat) : ∀ (p : Str), p.length ≤ n → ∀ (m : GoMap) (a : Args),
    parseFrom p m = .ok (a, none) →
    ∃ m2, a = some m2 ∧ ∀ rest, parseFrom (p ++ cSemi :: rest) m = parseFrom rest m2 := by
  induction n with
  | zero =>
    intro p hp m a h
    have : p = [] := List.length_eq_zero.mp (Nat.le_zero.mp hp)
    subst this
    have hk : Consumes [cEq, cSemi] [] [] := .nil
    have e1 := parseLoop_missingEquals hk [] (Or.inl rfl) 0 (some m)
    simp only [parseFrom, List.append_nil, List.length_nil, Nat.zero_add] at e1 h
    rw [e1] at h
    simp at h
  | succ n ih =>
    intro p hp m a h
    rcases entry_cases p with ⟨e, he⟩ | ⟨kraw, k, vraw, v, hk, hne, hv, rfl | ⟨rest0, rfl⟩⟩
    · rw [parseFrom_error he] at h
      simp at h
    · rw [parseFrom_last hk hne hv] at h
      simp only [Except.ok.injEq, Prod.mk.injEq, and_true] at h
      refine ⟨_, h.symm, fun rest => ?_⟩
      have := parseFrom_more hk hne hv rest m
      simpa using this
    · rw [parseFrom_more hk hne hv] at h
      have hlen : rest0.length ≤ n := by
        simp only [List.length_append, List.length_cons] at hp
        omega
      obtain ⟨m2, hm2, hrest⟩ := ih rest0 hlen _ a h
      refine ⟨m2, hm2, fun rest => ?_⟩
      have := parseFrom_more hk hne hv (rest0 ++ cSemi :: rest) m
      rw [← hrest rest, ← this]
      simp

theorem consumes_esc_key (x : Str) : Consumes [cEq, cSemi] (esc x) x :=
  consumes_escapeBytes _ _ (by decide) (by decide) (by decide) x

theorem consumes_esc_value (x : Str) : Consumes [cSemi] (esc x) x :=
  consumes_escapeBytes _ _ (by decide) (by decide) (by decide) x

theorem consumes_escV (x : Str) : Consumes [cSemi] (escV x) x :=
  consumes_escapeBytes _ _ (by decide) (by decide) (by decide) x

theorem consumes_escT (term : List Byte) (hbs : cBackslash ∉ term) (x : Str) :
    Consumes term (escT term x) x :=
  consumes_escapeBytes _ _ (fun _ hb => List.mem_cons_of_mem _ hb) (List.mem_cons_self _ _) hbs x

theorem escapeBytes_plain (set : List Byte) (x : Str) (h : ∀ b ∈ x, b ∉ set) :
    escapeBytes set x = x := by
  induction x with
  | nil => rfl
  | cons b x ih =>
    have hb : b ∉ set := h b (List.mem_cons_self _ _)
    simp only [escapeBytes, hb, if_false]
    rw [ih (fun c hc => h c (List.mem_cons_of_mem _ hc))]

theorem esc_plain (x : Str) (h : Plain x) : esc x = x :=
  escapeBytes_plain _ x h

/-- One well-formed escaped entry decodes to its pair. -/
theorem parse_escaped_pair (k v : Str) (hk : k ≠ []) :
    parseClientParameters (esc k ++ cEq :: esc v) = .ok (some [(k, [v])], none) := by
  rw [parse_nonempty _ (by simp), parseFrom_last (consumes_esc_key k) hk (consumes_esc_value v)]
  simp [GoMap.set, GoMap.lookup]

/-! ## Several entries -/

theorem lookup_set (m : GoMap) (k key : Str) (vs : List Str) :
    (m.set k vs).lookup key = if k = key then some vs else m.lookup key := by
  induction m with
  | nil => simp [GoMap.set, GoMap.lookup]
  | cons hd tl ih =>
    obtain ⟨k0, vs0⟩ := hd
    by_cases h0 : k0 = k
    · subst h0
      by_cases h1 : k0 = key <;> simp [GoMap.set, GoMap.lookup, h1]
    · by_cases h1 : k0 = key
      · subst h1
        have : ¬ (k = k0) := fun h => h0 h.symm
        simp [GoMap.set, GoMap.lookup, h0, this]
      · simp [GoMap.set, GoMap.lookup, h0, h1, ih]

theorem valuesOf_cons (key k v : Str) (ps : List (Str × Str)) :
    valuesOf key ((k, v) :: ps) = if k = key then v :: valuesOf key ps else valuesOf key ps := by
  by_cases h : k = key <;> simp [valuesOf, List.filter_cons, h]

theorem valuesOf_eq_nil (key : Str) (ps : List (Str × Str)) :
    valuesOf key ps = [] ↔ key ∉ ps.map Prod.fst := by
  induction ps with
  | nil => simp [valuesOf]
  | cons hd tl ih =>
    obtain ⟨k, v⟩ := hd
    rw [valuesOf_cons]
    by_cases h : k = key
    · simp [h]
    · have h2 : ¬ (key = k) := fun e => h e.symm
      simp [h, h2, ih]

/-- Adding pairs to a non-nil mapping never fails; each key ends up with its old
values followed by its new ones. -/
theorem addAll_lookup (ps : List (Str × Str)) : ∀ (m : GoMap),
    ∃ m2, addAll (some m) ps = .ok (some m2) ∧
      ∀ key, m2.lookup key =
        if valuesOf key ps = [] then m.lookup key
        else some ((m.lookup key).getD [] ++ valuesOf key ps) := by
  induction ps with
  | nil => intro m; exact ⟨m, rfl, fun key => by simp [valuesOf]⟩
  | cons hd tl ih =>
    intro m
    obtain ⟨k, v⟩ := hd
    obtain ⟨m2, h1, h2⟩ := ih (m.set k ((m.lookup k).getD [] ++ [v]))
    refine ⟨m2, by simpa [addAll, Args.Add] using h1, fun key => ?_⟩
    rw [h2 key, lookup_set, valuesOf_cons]
    by_cases h : k = key
    · subst h
      by_cases hv : valuesOf k tl = [] <;> simp [hv]
    · simp [h]

theorem encodePairs_single (p : Str × Str) : encodePairs [p] = encodePair p := by
  simp [encodePairs, List.intercalate]

theorem encodePairs_cons (p q : Str × Str) (ps : List (Str × Str)) :
    encodePairs (p :: q :: ps) = esc p.1 ++ cEq :: (esc p.2 ++ cSemi :: encodePairs (q :: ps)) := by
  simp [encodePairs, List.intercalate, encodePair]

/-- The loop on the entries of a list of pairs performs the `Add` calls in order. -/
theorem parseFrom_encodePairs (ps : List (Str × Str)) : ps ≠ [] → (∀ p ∈ ps, p.1 ≠ []) →
    ∀ (m : GoMap), ∃ m2, parseFrom (encodePairs ps) m = .ok (some m2, none) ∧
      addAll (some m) ps = .ok (some m2) := by
  induction ps with
  | nil => intro h; exact absurd rfl h
  | cons p tl ih =>
    intro _ hkeys m
    have hp : p.1 ≠ [] := hkeys p (List.mem_cons_self _ _)
    cases tl with
    | nil =>
      refine ⟨m.set p.1 ((m.lookup p.1).getD [] ++ [p.2]), ?_, ?_⟩
      · rw [encodePairs_single]
        exact parseFrom_last (consumes_esc_key p.1) hp (consumes_esc_value p.2) m
      · simp [addAll, Args.Add]
    | cons q tl2 =>
      obtain ⟨m2, h1, h2⟩ := ih (by simp) (fun r hr => hkeys r (List.mem_cons_of_mem _ hr))
        (m.set p.1 ((m.lookup p.1).getD [] ++ [p.2]))
      refine ⟨m2, ?_, ?_⟩
      · rw [encodePairs_cons, parseFrom_more (consumes_esc_key p.1) hp (consumes_esc_value p.2)]
        exact h1
      · simpa [addAll, Args.Add] using h2

/-! ## Where a parse fails -/

/-- A parse that ends in an error fails in the first entry, on the mapping it was
started with, or after a non-empty prefix that parses and a `';'`, on the mapping
built from that prefix. -/
theorem parseFrom_error_split (n : Nat) : ∀ (suf : Str), suf.length ≤ n →
    ∀ (m : GoMap) (a : Args) (e : GoError), parseFrom suf m = .ok (a, some e) →
    (a = some m ∧ ∀ args, parseLoop indexUnescaped suf 1 0 args = .ok (args, some e)) ∨
    ∃ p rest, suf = p ++ cSemi :: rest ∧ p ≠ [] ∧ parseFrom p m = .ok (a, none) ∧
      ∀ args, parseLoop indexUnescaped rest 1 0 args = .ok (args, some e) := by
  induction n with
  | zero =>
    intro suf hs m a e h
    have : suf = [] := List.length_eq_zero.mp (Nat.le_zero.mp hs)
    subst this
    have hk : Consumes [cEq, cSemi] [] [] := .nil
    have e1 := fun f args => parseLoop_missingEquals hk [] (Or.inl rfl) f args
    simp only [List.append_nil] at e1
    rw [parseFrom_error e1] at h
    simp only [Except.ok.injEq, Prod.mk.injEq, Option.some.injEq] at h
    obtain ⟨rfl, rfl⟩ := h
    exact Or.inl ⟨rfl, fun args => e1 0 args⟩
  | succ n ih =>
    intro suf hs m a e h
    rcases entry_cases suf with ⟨e0, he⟩ | ⟨kraw, k, vraw, v, hk, hne, hv, rfl | ⟨rest0, rfl⟩⟩
    · rw [parseFrom_error he] at h
      simp only [Except.ok.injEq, Prod.mk.injEq, Option.some.injEq] at h
      obtain ⟨rfl, rfl⟩ := h
      exact Or.inl ⟨rfl, fun args => he 0 args⟩
    · rw [parseFrom_last hk hne hv] at h
      simp at h
    · rw [parseFrom_more hk hne hv] at h
      have hlen : rest0.length ≤ n := by
        simp only [List.length_append, List.length_cons] at hs
        omega
      right
      rcases ih rest0 hlen _ a e h with ⟨rfl, hfail⟩ | ⟨p, rest, rfl, hp, hpar, hfail⟩
      · refine ⟨kraw ++ cEq :: vraw, rest0, by simp, by simp, ?_, hfail⟩
        exact parseFrom_last hk hne hv m
      · refine ⟨kraw ++ cEq :: (vraw ++ cSemi :: p), rest, by simp, by simp, ?_, hfail⟩
        rw [parseFrom_more hk hne hv]
        exact hpar

/-- A text that parses ends in a well-formed entry; a backslash appended to it
dangles in the value segment of that entry. -/
theorem parseFrom_dangling_split (n : Nat) : ∀ (p : Str), p.length ≤ n →
    ∀ (m : GoMap) (a : Args), parseFrom p m = .ok (a, none) →
    ∃ pre kraw k vraw v a0, p = pre ++ (kraw ++ cEq :: vraw) ∧
      Consumes [cEq, cSemi] kraw k ∧ k ≠ [] ∧ Consumes [cSemi] vraw v ∧
      ((pre = [] ∧ a0 = some m) ∨
        ∃ q, q ≠ [] ∧ pre = q ++ [cSemi] ∧ parseFrom q m = .ok (a0, none)) ∧
      parseFrom (p ++ [cBackslash]) m
        = .ok (a0, some (.danglingEscape (vraw ++ [cBackslash]))) := by
  induction n with
  | zero =>
    intro p hp m a h
    have : p = [] := List.length_eq_zero.mp (Nat.le_zero.mp hp)
    subst this
    have hk : Consumes [cEq, cSemi] [] [] := .nil
    have e1 := fun f args => parseLoop_missingEquals hk [] (Or.inl rfl) f args
    simp only [List.append_nil] at e1
    rw [parseFrom_error e1] at h
    simp at h
  | succ n ih =>
    intro p hp m a h
    rcases entry_cases p with ⟨e0, he⟩ | ⟨kraw, k, vraw, v, hk, hne, hv, rfl | ⟨rest0, rfl⟩⟩
    · rw [parseFrom_error he] at h
      simp at h
    · refine ⟨[], kraw, k, vraw, v, some m, rfl, hk, hne, hv, Or.inl ⟨rfl, rfl⟩, ?_⟩
      have := parseLoop_danglingValue hk hv
        ((kraw ++ cEq :: vraw ++ [cBackslash]).length) (some m)
      simpa [parseFrom] using this
    · rw [parseFrom_more hk hne hv] at h
      have hlen : rest0.length ≤ n := by
        simp only [List.length_append, List.length_cons] at hp
        omega
      obtain ⟨pre, kraw2, k2, vraw2, v2, a0, rfl, hk2, hne2, hv2, hpre, hd⟩ :=
        ih rest0 hlen _ a h
      refine ⟨kraw ++ cEq :: (vraw ++ cSemi :: pre), kraw2, k2, vraw2, v2, a0, by simp,
        hk2, hne2, hv2, Or.inr ?_, ?_⟩
      · rcases hpre with ⟨rfl, rfl⟩ | ⟨q, hq, rfl, hpar⟩
        · exact ⟨kraw ++ cEq :: vraw, by simp, by simp, parseFrom_last hk hne hv m⟩
        · refine ⟨kraw ++ cEq :: (vraw ++ cSemi :: q), by simp, by simp, ?_⟩
          rw [parseFrom_more hk hne hv]
          exact hpar
      · have := parseFrom_more hk hne hv (pre ++ (kraw2 ++ cEq :: vraw2) ++ [cBackslash]) m
        rw [← hd, ← this]
        simp

/-! ## The mapping: lemmas -/

theorem lookup_eq_none_iff (m : GoMap) (key : Str) :
    m.lookup key = none ↔ key ∉ m.map Prod.fst := by
  induction m with
  | nil => simp [GoMap.lookup]
  | cons hd tl ih =>
    obtain ⟨k, vs⟩ := hd
    by_cases h : k = key
    · simp [GoMap.lookup, h]
    · have h2 : ¬ (key = k) := fun e => h e.symm
      simp [GoMap.lookup, h, h2, ih]

theorem add_some (m : GoMap) (k v : Str) :
    Args.Add (some m) k v = .ok (some (m.set k ((m.lookup k).getD [] ++ [v]))) := rfl

theorem get_none (key : Str) : Args.Get none key = .ok ([], false) := rfl

theorem get_absent (m : GoMap) (key : Str) (h : m.lookup key = none) :
    Args.Get (some m) key = .ok ([], false) := by
  simp [Args.Get, h]

theorem get_empty (m : GoMap) (key : Str) (h : m.lookup key = some []) :
    Args.Get (some m) key = .ok ([], false) := by
  simp [Args.Get, h]

theorem get_first (m : GoMap) (key v : Str) (vs : List Str) (h : m.lookup key = some (v :: vs)) :
    Args.Get (some m) key = .ok (v, true) := by
  simp [Args.Get, h, elemAt]

/-- `Get` returns a pair in every case, decided by the lookup. -/
theorem get_cases (args : Args) (key : Str) :
    (∃ v vs, args.lookup key = some (v :: vs) ∧ args.Get key = .ok (v, true)) ∨
    ((args.lookup key = none ∨ args.lookup key = some []) ∧ args.Get key = .ok ([], false)) := by
  cases args with
  | none => exact Or.inr ⟨Or.inl rfl, rfl⟩
  | some m =>
    cases h : m.lookup key with
    | none => exact Or.inr ⟨Or.inl h, get_absent m key h⟩
    | some vs =>
      cases vs with
      | nil => exact Or.inr ⟨Or.inr h, get_empty m key h⟩
      | cons v vs => exact Or.inl ⟨v, vs, h, get_first m key v vs h⟩

theorem get_congr (m m2 : GoMap) (key : Str) (h : m2.lookup key = m.lookup key) :
    Args.Get (some m2) key = Args.Get (some m) key := by
  simp [Args.Get, h]

theorem mem_keys_iff (m : GoMap) (key : Str) :
    key ∈ Args.keys (some m) ↔ m.lookup key ≠ none := by
  rw [Ne, lookup_eq_none_iff]
  simp [Args.keys]

/-! ## What a successful parse has decoded -/

/-- A text that parses decodes to a non-empty list of pairs with non-empty keys,
which depends on the text only: started on any mapping, the loop performs the
`Add` calls of these pairs in order. -/
theorem parseFrom_pairs (n : Nat) : ∀ (suf : Str), suf.length ≤ n → ∀ (m : GoMap) (a : Args),
    parseFrom suf m = .ok (a, none) →
    ∃ ps : List (Str × Str), ps ≠ [] ∧ (∀ p ∈ ps, p.1 ≠ []) ∧
      ∀ m1 : GoMap, ∃ m2, parseFrom suf m1 = .ok (some m2, none) ∧
        addAll (some m1) ps = .ok (some m2) := by
  induction n with
  | zero =>
    intro suf hs m a h
    have : suf = [] := List.length_eq_zero.mp (Nat.le_zero.mp hs)
    subst this
    have hk : Consumes [cEq, cSemi] [] [] := .nil
    have e1 := fun f args => parseLoop_missingEquals hk [] (Or.inl rfl) f args
    simp only [List.append_nil] at e1
    rw [parseFrom_error e1] at h
    simp at h
  | succ n ih =>
    intro suf hs m a h
    rcases entry_cases suf with ⟨e0, he⟩ | ⟨kraw, k, vraw, v, hk, hne, hv, rfl | ⟨rest0, rfl⟩⟩
    · rw [parseFrom_error he] at h
      simp at h
    · refine ⟨[(k, v)], by simp, by simpa using hne, fun m1 => ⟨_, parseFrom_last hk hne hv m1, ?_⟩⟩
      simp [addAll, Args.Add]
    · rw [parseFrom_more hk hne hv] at h
      have hlen : rest0.length ≤ n := by
        simp only [List.length_append, List.length_cons] at hs
        omega
      obtain ⟨ps, _, hkeys, hall⟩ := ih rest0 hlen _ a h
      refine ⟨(k, v) :: ps, by simp, ?_, fun m1 => ?_⟩
      · intro p hp
        rcases List.mem_cons.mp hp with rfl | hp
        · exact hne
        · exact hkeys p hp
      · obtain ⟨m2, h1, h2⟩ := hall (m1.set k ((m1.lookup k).getD [] ++ [v]))
        refine ⟨m2, ?_, ?_⟩
        · rw [parseFrom_more hk hne hv]
          exact h1
        · simpa [addAll, Args.Add] using h2

theorem valuesOf_nil_key (ps : List (Str × Str)) (hkeys : ∀ p ∈ ps, p.1 ≠ []) :
    valuesOf [] ps = [] := by
  rw [valuesOf_eq_nil]
  intro h
  obtain ⟨p, hp, hp2⟩ := List.mem_map.mp h
  exact hkeys p hp hp2

theorem valuesOf_length_pos (key : Str) (ps : List (Str × Str)) (h : valuesOf key ps ≠ []) :
    1 ≤ (valuesOf key ps).length := by
  cases hv : valuesOf key ps with
  | nil => exact absurd hv h
  | cons x xs => simp

/-- The mapping of a successful parse, looked up key by key. -/
theorem parse_lookup (s : Str) (a : Args) (h : parseClientParameters s = .ok (a, none)) :
    (s = [] ∧ a = Args.make) ∨
    ∃ (ps : List (Str × Str)) (m : GoMap), s ≠ [] ∧ ps ≠ [] ∧ (∀ p ∈ ps, p.1 ≠ []) ∧
      a = some m ∧ addAll Args.make ps = .ok (some m) ∧
      (∀ key, m.lookup key = if valuesOf key ps = [] then none else some (valuesOf key ps)) ∧
      ∀ m1 : GoMap, ∃ m2, parseFrom s m1 = .ok (some m2, none) ∧
        ∀ key, m2.lookup key =
          if valuesOf key ps = [] then m1.lookup key
          else some ((m1.lookup key).getD [] ++ valuesOf key ps) := by
  by_cases hs : s = []
  · subst hs
    rw [parse_nil] at h
    simp only [Except.ok.injEq, Prod.mk.injEq, and_true] at h
    exact Or.inl ⟨rfl, h.symm⟩
  · right
    rw [parse_nonempty s hs] at h
    obtain ⟨ps, hne, hkeys, hall⟩ := parseFrom_pairs s.length s le_rfl [] a h
    obtain ⟨m, hm1, hm2⟩ := hall []
    have ha : a = some m := by
      rw [hm1] at h
      simp only [Except.ok.injEq, Prod.mk.injEq, and_true] at h
      exact h.symm
    refine ⟨ps, m, hs, hne, hkeys, ha, hm2, ?_, fun m1 => ?_⟩
    · intro key
      obtain ⟨m3, h3, h4⟩ := addAll_lookup ps []
      rw [hm2] at h3
      simp only [Except.ok.injEq, Option.some.injEq] at h3
      subst h3
      rw [h4 key]
      simp [GoMap.lookup]
    · obtain ⟨m2, h1, h2⟩ := hall m1
      obtain ⟨m3, h3, h4⟩ := addAll_lookup ps m1
      rw [h2] at h3
      simp only [Except.ok.injEq, Option.some.injEq] at h3
      subst h3
      exact ⟨m2, h1, h4⟩

theorem mergeVals_eq_none (x y : Option (List Str)) :
    mergeVals x y = none ↔ x = none ∧ y = none := by
  cases x <;> cases y <;> simp [mergeVals]

theorem mergeVals_none_right (x : Option (List Str)) : mergeVals x none = x := by
  cases x <;> simp [mergeVals]

theorem mergeVals_some_right (x : Option (List Str)) (vs : List Str) :
    mergeVals x (some vs) = some (x.getD [] ++ vs) := by
  cases x <;> simp [mergeVals]

/-- A text that starts with `';'` is rejected at once. -/
theorem parseFrom_leading_semi (rest : Str) (m : GoMap) :
    parseFrom (cSemi :: rest) m = .ok (some m, some (.missingEquals [])) := by
  have hk : Consumes [cEq, cSemi] [] [] := .nil
  have := parseLoop_missingEquals hk (cSemi :: rest) (Or.inr ⟨cSemi, rest, rfl, by simp⟩)
    (cSemi :: rest).length (some m)
  simpa [parseFrom] using this

theorem parseFrom_nil (m : GoMap) :
    parseFrom [] m = .ok (some m, some (.missingEquals [])) := by
  have hk : Consumes [cEq, cSemi] [] [] := .nil
  have := parseLoop_missingEquals hk [] (Or.inl rfl) 0 (some m)
  simpa [parseFrom] using this

/-! ## The scanner: its result in every case -/

/-- The scanner either stops at the end of a consumed segment, before a
terminator or at the end of the text, or fails on a lone final backslash. -/
theorem scan_cases (term : List Byte) (s : Str) :
    (∃ raw d tail, s = raw ++ tail ∧ Consumes term raw d ∧ StopsAt term tail ∧
      indexUnescaped s term = (raw.length, d, none)) ∨
    (cBackslash ∉ term ∧ ∃ raw d, s = raw ++ [cBackslash] ∧ Consumes term raw d ∧
      indexUnescaped s term = (0, [], some (.danglingEscape s))) := by
  rcases consumes_split term s with ⟨raw, d, tail, rfl, hc, ht⟩ | ⟨hbs, raw, d, rfl, hc⟩
  · exact Or.inl ⟨raw, d, tail, rfl, hc, ht, scan_consumes hc tail ht⟩
  · exact Or.inr ⟨hbs, raw, d, rfl, hc, scan_consumes_dangling hc hbs⟩

/-- The scanner runs to the end of a text without error exactly when the text is
a consumed segment. -/
theorem scan_full_iff (term : List Byte) (p d : Str) :
    indexUnescaped p term = (p.length, d, none) ↔ Consumes term p d := by
  constructor
  · intro h
    rcases scan_cases term p with ⟨raw, d2, tail, rfl, hc, _, hs⟩ | ⟨_, raw, d2, rfl, _, hs⟩
    · rw [hs] at h
      simp only [Prod.mk.injEq, List.length_append, and_true] at h
      have ht : tail = [] := List.length_eq_zero.mp (by omega)
      subst ht
      rw [← h.2]
      simpa using hc
    · rw [hs] at h
      simp at h
  · intro h
    simpa using scan_consumes h [] (Or.inl rfl)

theorem scan_stop_le (term : List Byte) (s : Str) : (indexUnescaped s term).1 ≤ s.length := by
  rcases scan_cases term s with ⟨raw, d, tail, rfl, _, _, hs⟩ | ⟨_, raw, d, rfl, _, hs⟩
  · rw [hs]; simp
  · rw [hs]; simp

/-- A stop index short of the end of the text points at a terminator. -/
theorem scan_stop_term (term : List Byte) (s : Str) (n : Nat) (d : Str)
    (h : indexUnescaped s term = (n, d, none)) (hn : n < s.length) :
    ∃ c, c ∈ term ∧ s.get? n = some c := by
  rcases scan_cases term s with ⟨raw, d2, tail, rfl, _, ht, hs⟩ | ⟨_, raw, d2, rfl, _, hs⟩
  · rw [hs] at h
    simp only [Prod.mk.injEq, and_true] at h
    obtain ⟨rfl, _⟩ := h
    rcases ht with rfl | ⟨c, more, rfl, hc⟩
    · simp at hn
    · refine ⟨c, hc, ?_⟩
      rw [List.get?_eq_getElem?, List.getElem?_append_right (le_refl _)]
      simp
  · rw [hs] at h
    simp at h

theorem consumes_snoc_plain {term : List Byte} {p d : Str} (h : Consumes term p d) (b : Byte)
    (hb : b ∉ term) (hb2 : b ≠ cBackslash) {raw d2 : Str} (h2 : Consumes term raw d2) :
    Consumes term (p ++ b :: raw) (d ++ b :: d2) :=
  consumes_append h (.plain hb hb2 h2)

theorem consumes_snoc_escaped {term : List Byte} {p d : Str} (h : Consumes term p d) (b : Byte)
    (hbs : cBackslash ∉ term) {raw d2 : Str} (h2 : Consumes term raw d2) :
    Consumes term (p ++ cBackslash :: b :: raw) (d ++ b :: d2) :=
  consumes_append h (.escaped hbs h2)

/-- A text without `';'` and backslash is a value segment that decodes to itself. -/
theorem consumes_value_plain (v : Str) (h : ∀ b ∈ v, b ∉ [cSemi, cBackslash]) :
    Consumes [cSemi] v v := by
  have := consumes_escV v
  rwa [escV, escapeBytes_plain _ v h] at this

/-- The first entry `=rest` of a text has an empty key: the value is scanned, and
the error is that of the value scan if there is one, and `EmptyKey` otherwise. -/
theorem parseFrom_empty_key (rest : Str) (m : GoMap) :
    (∃ e, (indexUnescaped rest [cSemi]).2.2 = some e ∧ e = .danglingEscape rest ∧
      parseFrom (cEq :: rest) m = .ok (some m, some e)) ∨
    ((indexUnescaped rest [cSemi]).2.2 = none ∧
      parseFrom (cEq :: rest) m
        = .ok (some m, some (.emptyKey (cEq :: rest.take (indexUnescaped rest [cSemi]).1)))) := by
  have hk : Consumes [cEq, cSemi] [] [] := .nil
  rcases scan_cases [cSemi] rest with ⟨raw, d, tail, rfl, hc, ht, hs⟩ | ⟨_, raw, d, rfl, hc, hs⟩
  · right
    rw [hs]
    refine ⟨rfl, ?_⟩
    have := parseLoop_emptyKey hc tail ht (cEq :: (raw ++ tail)).length (some m)
    simpa [parseFrom] using this
  · left
    rw [hs]
    refine ⟨_, rfl, rfl, ?_⟩
    have := parseLoop_danglingValue hk hc (cEq :: (raw ++ [cBackslash])).length (some m)
    simpa [parseFrom] using this

/-! ## Termination and absence of panics -/

theorem sliceFrom_fault {s : Str} {i : Nat} {flt : Fault} (h : sliceFrom s i = .error flt) :
    flt = .indexOutOfRange := by
  unfold sliceFrom at h
  split at h <;> simp_all

theorem slice_fault {s : Str} {lo hi : Nat} {flt : Fault} (h : slice s lo hi = .error flt) :
    flt = .indexOutOfRange := by
  unfold slice at h
  split at h <;> simp_all

theorem index_fault {s : Str} {i : Nat} {flt : Fault} (h : index s i = .error flt) :
    flt = .indexOutOfRange := by
  unfold index at h
  split at h <;> simp_all

theorem add_fault {args : Args} {k v : Str} {flt : Fault} (h : args.Add k v = .error flt) :
    flt = .nilMapWrite := by
  unfold Args.Add at h
  split at h <;> simp_all

/-- One iteration of the loop, whatever the scanner: it panics, or returns, or
goes on from a cursor that is at least two bytes further and within the text. -/
theorem parseLoop_step (scan : Str → List Byte → Nat × Str × Option GoError) (s : Str)
    (f i : Nat) (args : Args) :
    (∃ flt, flt ≠ Fault.outOfFuel ∧ parseLoop scan s (f + 1) i args = .error flt) ∨
    (∃ r, parseLoop scan s (f + 1) i args = .ok r) ∨
    (∃ i2 args2, i + 2 ≤ i2 ∧ i2 ≤ s.length ∧
      parseLoop scan s (f + 1) i args = parseLoop scan s f i2 args2) := by
  rw [parseLoop]
  dsimp only
  cases h1 : sliceFrom s i with
  | error flt =>
    left
    exact ⟨flt, by rw [sliceFrom_fault h1]; decide, rfl⟩
  | ok sub =>
    dsimp only
    rcases hsc : scan sub [cEq, cSemi] with ⟨offset, key, err⟩
    cases err with
    | some e => right; left; exact ⟨_, rfl⟩
    | none =>
      dsimp only
      by_cases hge : i + offset ≥ s.length
      · rw [if_pos hge]
        dsimp only
        cases h2 : slice s i (i + offset) with
        | error flt => left; exact ⟨flt, by rw [slice_fault h2]; decide, rfl⟩
        | ok frag => right; left; exact ⟨_, rfl⟩
      · rw [if_neg hge]
        cases h3 : index s (i + offset) with
        | error flt => left; exact ⟨flt, by rw [index_fault h3]; decide, rfl⟩
        | ok c =>
          simp only [Except.map]
          by_cases hc : c = cEq
          · have hd : decide (c ≠ cEq) = false := by simp [hc]
            rw [hd]
            dsimp only
            cases h4 : sliceFrom s (i + offset + 1) with
            | error flt => left; exact ⟨flt, by rw [sliceFrom_fault h4]; decide, rfl⟩
            | ok sub2 =>
              dsimp only
              rcases hsc2 : scan sub2 [cSemi] with ⟨offset2, value, err2⟩
              cases err2 with
              | some e => right; left; exact ⟨_, rfl⟩
              | none =>
                dsimp only
                by_cases hkey : key.length = 0
                · rw [if_pos hkey]
                  cases h5 : slice s i (i + offset + 1 + offset2) with
                  | error flt => left; exact ⟨flt, by rw [slice_fault h5]; decide, rfl⟩
                  | ok frag => right; left; exact ⟨_, rfl⟩
                · rw [if_neg hkey]
                  cases h6 : args.Add key value with
                  | error flt => left; exact ⟨flt, by rw [add_fault h6]; decide, rfl⟩
                  | ok args2 =>
                    dsimp only
                    by_cases hend : i + offset + 1 + offset2 ≥ s.length
                    · rw [if_pos hend]
                      right; left; exact ⟨_, rfl⟩
                    · rw [if_neg hend]
                      right; right
                      exact ⟨i + offset + 1 + offset2 + 1, args2, by omega, by omega, rfl⟩
          · have hd : decide (c ≠ cEq) = true := by simp [hc]
            rw [hd]
            dsimp only
            cases h2 : slice s i (i + offset) with
            | error flt => left; exact ⟨flt, by rw [slice_fault h2]; decide, rfl⟩
            | ok frag => right; left; exact ⟨_, rfl⟩

/-- Whatever the scanner returns, fuel beyond the distance from the cursor to the
end of the text never runs out. -/
theorem parseLoop_fuel_enough (scan : Str → List Byte → Nat × Str × Option GoError) (s : Str) :
    ∀ (g i : Nat) (args : Args), s.length ≤ g + i →
      parseLoop scan s (g + 1) i args ≠ .error .outOfFuel := by
  intro g
  induction g with
  | zero =>
    intro i args h
    rcases parseLoop_step scan s 0 i args with ⟨flt, hne, he⟩ | ⟨r, he⟩ | ⟨i2, args2, h1, h2, _⟩
    · rw [he]
      intro hc
      simp only [Except.error.injEq] at hc
      exact hne hc
    · rw [he]
      simp
    · omega
  | succ g ih =>
    intro i args h
    rcases parseLoop_step scan s (g + 1) i args with ⟨flt, hne, he⟩ | ⟨r, he⟩ | ⟨i2, args2, h1, h2, he⟩
    · rw [he]
      intro hc
      simp only [Except.error.injEq] at hc
      exact hne hc
    · rw [he]
      simp
    · rw [he]
      exact ih i2 args2 (by omega)

/-- With the scanner of the source and a non-nil mapping, the loop started at the
beginning of a text never panics. -/
theorem parseLoop_no_panic : ∀ (f : Nat) (suf : Str) (m : GoMap) (flt : Fault),
    parseLoop indexUnescaped suf f 0 (some m) = .error flt → flt = .outOfFuel := by
  intro f
  induction f with
  | zero =>
    intro suf m flt h
    rw [parseLoop] at h
    simp only [Except.error.injEq] at h
    exact h.symm
  | succ f ih =>
    intro suf m flt h
    rcases entry_cases suf with ⟨e, he⟩ | ⟨kraw, k, vraw, v, hk, hne, hv, rfl | ⟨rest0, rfl⟩⟩
    · rw [he] at h
      simp at h
    · rw [(parseLoop_entry hk hne hv f m).1] at h
      simp at h
    · rw [(parseLoop_entry hk hne hv f m).2] at h
      exact ih rest0 _ flt h

theorem parseLoop_no_panic_from (s : Str) (f i : Nat) (m : GoMap) (hi : i ≤ s.length)
    (flt : Fault) (h : parseLoop indexUnescaped s f i (some m) = .error flt) :
    flt = .outOfFuel := by
  have hs : s = s.take i ++ s.drop i := (List.take_append_drop i s).symm
  have hl : (s.take i).length = i := by simp [hi]
  have := parseLoop_shift_zero indexUnescaped (s.take i) (s.drop i) f (some m)
  rw [← hs, hl] at this
  rw [this] at h
  exact parseLoop_no_panic f _ m flt h

/-- The parser returns on every input. -/
theorem parse_returns (s : Str) : ∃ a e, parseClientParameters s = .ok (a, e) := by
  by_cases hs : s = []
  · subst hs
    exact ⟨_, _, parse_nil⟩
  · rw [parse_nonempty s hs]
    cases h : parseFrom s [] with
    | error flt =>
      exfalso
      have h1 := parseLoop_no_panic _ _ _ _ h
      subst h1
      exact parseLoop_fuel_enough indexUnescaped s s.length 0 (some []) (by omega) h
    | ok r => exact ⟨r.1, r.2, rfl⟩

/-- As many units of fuel as the text has bytes are enough. -/
theorem parseLoop_fuel_len (n : Nat) : ∀ (suf : Str), suf.length ≤ n → ∀ (f : Nat) (m : GoMap),
    1 ≤ f → suf.length ≤ f → parseLoop indexUnescaped suf f 0 (some m) = parseFrom suf m := by
  induction n with
  | zero =>
    intro suf hs f m h1 _
    obtain ⟨g, rfl⟩ : ∃ g, f = g + 1 := ⟨f - 1, by omega⟩
    have : suf = [] := List.length_eq_zero.mp (Nat.le_zero.mp hs)
    subst this
    have hk : Consumes [cEq, cSemi] [] [] := .nil
    have e1 := parseLoop_missingEquals hk [] (Or.inl rfl) g (some m)
    simp only [List.append_nil] at e1
    rw [e1, parseFrom_nil]
  | succ n ih =>
    intro suf hs f m h1 h2
    obtain ⟨g, rfl⟩ : ∃ g, f = g + 1 := ⟨f - 1, by omega⟩
    rcases entry_cases suf with ⟨e, he⟩ | ⟨kraw, k, vraw, v, hk, hne, hv, rfl | ⟨rest0, rfl⟩⟩
    · rw [he, parseFrom_error he]
    · rw [(parseLoop_entry hk hne hv g m).1, parseFrom_last hk hne hv]
    · rw [(parseLoop_entry hk hne hv g m).2, parseFrom_more hk hne hv]
      simp only [List.length_append, List.length_cons] at hs h2
      exact ih rest0 (by omega) g _ (by omega) (by omega)

/-! ## Value slices in memory: lemmas -/

theorem take_set_of_le {α : Type} (a : α) : ∀ (l : List α) (m n : Nat), m ≤ n →
    (l.set n a).take m = l.take m := by
  intro l
  induction l with
  | nil => intro m n _; simp
  | cons x xs ih =>
    intro m n h
    cases m with
    | zero => simp
    | succ m =>
      cases n with
      | zero => omega
      | succ n => simp [List.set, ih m n (by omega)]

theorem take_succ_set {α : Type} (a : α) (l : List α) (n : Nat) (h : n < l.length) :
    (l.set n a).take (n + 1) = l.take n ++ [a] := by
  rw [List.set_eq_take_append_cons_drop, if_pos h]
  have hl : (l.take n).length = n := by simp; omega
  rw [List.take_append_eq_append_take, hl]
  simp [List.take_of_length_le, hl]

theorem apart_symm {s t : Slice} (h : s.Apart t) : t.Apart s := by
  unfold Slice.Apart at *
  rcases h with h | h | h | h | h
  · exact Or.inr (Or.inl h)
  · exact Or.inl h
  · exact Or.inr (Or.inr (Or.inl (fun e => h e.symm)))
  · exact Or.inr (Or.inr (Or.inr (Or.inr h)))
  · exact Or.inr (Or.inr (Or.inr (Or.inl h)))

theorem read_nilSlice (h : Heap) : nilSlice.read h = [] := by
  simp [Slice.read, nilSlice]

theorem valid_nilSlice (h : Heap) : nilSlice.Valid h := by
  simp [Slice.Valid, nilSlice]

theorem read_len_zero (h : Heap) (e : Slice) (h0 : e.len = 0) : e.read h = [] := by
  simp [Slice.read, h0]

/-- A valid slice holds as many elements as its length says. -/
theorem read_length {h : Heap} {e : Slice} (hv : e.Valid h) : (e.read h).length = e.len := by
  obtain ⟨h1, h2⟩ := hv
  rcases h2 with h2 | ⟨_, h3⟩
  · have : e.len = 0 := by omega
    simp [Slice.read, this]
  · simp only [Slice.read, List.length_take, List.length_drop]
    omega

/-- Allocating a new array leaves the valid slices as they are. -/
theorem read_heap_append {h : Heap} {e : Slice} (hv : e.Valid h) (x : List Str) :
    e.read (h ++ [x]) = e.read h := by
  obtain ⟨h1, h2⟩ := hv
  rcases h2 with h2 | ⟨h3, _⟩
  · have : e.len = 0 := by omega
    simp [Slice.read, this]
  · simp only [Slice.read]
    rw [List.getD_append _ _ _ _ h3]

theorem valid_heap_append {h : Heap} {e : Slice} (hv : e.Valid h) (x : List Str) :
    e.Valid (h ++ [x]) := by
  obtain ⟨h1, h2⟩ := hv
  refine ⟨h1, ?_⟩
  rcases h2 with h2 | ⟨h3, h4⟩
  · exact Or.inl h2
  · right
    rw [List.getD_append _ _ _ _ h3]
    exact ⟨by simp; omega, h4⟩

theorem getD_set_length (h : Heap) (a j : Nat) (v : Str) (b : Nat) :
    ((h.set a ((h.getD a []).set j v)).getD b []).length = (h.getD b []).length := by
  simp only [List.getD_eq_getElem?_getD, List.getElem?_set]
  by_cases hab : a = b
  · subst hab
    by_cases hl : a < h.length
    · simp [hl]
    · simp [hl]
      have : h[a]? = none := List.getElem?_eq_none (by omega)
      simp [this]
  · simp [hab]

theorem getD_set_ne (h : Heap) (a b : Nat) (x : List Str) (hab : a ≠ b) :
    (h.set a x).getD b [] = h.getD b [] := by
  simp [List.getD_eq_getElem?_getD, List.getElem?_set, hab]

theorem getD_set_eq (h : Heap) (a : Nat) (x : List Str) (ha : a < h.length) :
    (h.set a x).getD a [] = x := by
  simp [List.getD_eq_getElem?_getD, List.getElem?_set, ha]

/-- Writing a cell keeps every valid slice valid. -/
theorem valid_heap_set {h : Heap} {e : Slice} (hv : e.Valid h) (a j : Nat) (v : Str) :
    e.Valid (h.set a ((h.getD a []).set j v)) := by
  obtain ⟨h1, h2⟩ := hv
  refine ⟨h1, ?_⟩
  rcases h2 with h2 | ⟨h3, h4⟩
  · exact Or.inl h2
  · right
    rw [getD_set_length]
    exact ⟨by simpa using h3, h4⟩

/-- Appending in place: the slice reads as before, followed by the new value. -/
theorem read_set_self {h : Heap} {s : Slice} (hv : s.Valid h) (hlt : s.len < s.cap) (v : Str) :
    Slice.read (h.set s.arr ((h.getD s.arr []).set (s.off + s.len) v))
        ⟨s.arr, s.off, s.len + 1, s.cap⟩
      = s.read h ++ [v] := by
  obtain ⟨_, h2⟩ := hv
  rcases h2 with h2 | ⟨h3, h4⟩
  · omega
  · simp only [Slice.read]
    rw [getD_set_eq h _ _ h3, List.drop_set, if_neg (by omega)]
    have hn : s.off + s.len - s.off = s.len := by omega
    rw [hn, take_succ_set]
    simp only [List.length_drop]
    omega

/-- Appending in place leaves alone the slices that share no storage with it. -/
theorem read_set_other {h : Heap} {s e : Slice} (hs : s.Valid h) (he : e.Valid h)
    (hlt : s.len < s.cap) (hap : s.Apart e) (v : Str) :
    e.read (h.set s.arr ((h.getD s.arr []).set (s.off + s.len) v)) = e.read h := by
  obtain ⟨he1, _⟩ := he
  by_cases harr : s.arr = e.arr
  · rcases hap with hap | hap | hap | hap | hap
    · omega
    · have : e.len = 0 := by omega
      simp [Slice.read, this]
    · exact absurd harr hap
    · obtain ⟨_, h2⟩ := hs
      rcases h2 with h2 | ⟨h3, _⟩
      · omega
      · simp only [Slice.read]
        rw [← harr, getD_set_eq h _ _ h3, List.drop_set_of_lt _ _ (by omega)]
    · obtain ⟨_, h2⟩ := hs
      rcases h2 with h2 | ⟨h3, _⟩
      · omega
      · simp only [Slice.read]
        rw [← harr, getD_set_eq h _ _ h3, List.drop_set, if_neg (by omega),
          take_set_of_le _ _ _ _ (by omega)]
  · simp only [Slice.read]
    rw [getD_set_ne h _ _ _ harr]

theorem lookupSlice_mem {es : List (Str × Slice)} {key : Str} {s : Slice}
    (h : lookupSlice es key = some s) : ∃ e ∈ es, e.2 = s := by
  induction es with
  | nil => simp [lookupSlice] at h
  | cons hd tl ih =>
    obtain ⟨k0, s0⟩ := hd
    by_cases hk : k0 = key
    · simp only [lookupSlice, hk, if_true, Option.some.injEq] at h
      exact ⟨(k0, s0), List.mem_cons_self _ _, h⟩
    · simp only [lookupSlice, hk, if_false] at h
      obtain ⟨e, he, hes⟩ := ih h
      exact ⟨e, List.mem_cons_of_mem _ he, hes⟩

theorem mem_setSlice {es : List (Str × Slice)} {key : Str} {s : Slice} {e : Str × Slice}
    (h : e ∈ setSlice es key s) : e ∈ es ∨ e = (key, s) := by
  induction es with
  | nil =>
    simp only [setSlice, List.mem_singleton] at h
    exact Or.inr h
  | cons hd tl ih =>
    obtain ⟨k0, s0⟩ := hd
    by_cases hk : k0 = key
    · simp only [setSlice, hk, if_true, List.mem_cons] at h
      rcases h with h | h
      · exact Or.inr h
      · exact Or.inl (List.mem_cons_of_mem _ h)
    · simp only [setSlice, hk, if_false, List.mem_cons] at h
      rcases h with h | h
      · exact Or.inl (by rw [h]; exact List.mem_cons_self _ _)
      · rcases ih h with h2 | h2
        · exact Or.inl (List.mem_cons_of_mem _ h2)
        · exact Or.inr h2

theorem view_lookup (h : Heap) (es : List (Str × Slice)) (key : Str) :
    GoMap.lookup (es.map (fun e => (e.1, e.2.read h))) key
      = (lookupSlice es key).map (fun s => s.read h) := by
  induction es with
  | nil => simp [GoMap.lookup, lookupSlice]
  | cons hd tl ih =>
    obtain ⟨k0, s0⟩ := hd
    by_cases hk : k0 = key <;> simp [GoMap.lookup, lookupSlice, hk, ih]

theorem view_lookup_getD (h : Heap) (es : List (Str × Slice)) (key : Str) :
    (GoMap.lookup (es.map (fun e => (e.1, e.2.read h))) key).getD []
      = ((lookupSlice es key).getD nilSlice).read h := by
  rw [view_lookup]
  cases lookupSlice es key with
  | none => simp [read_nilSlice]
  | some s => simp

/-- The headers after an assignment, read on a heap `h2` on which the assigned
slice reads `vals` and every slice of the map reads as on `h`. -/
theorem view_setSlice_all (h h2 : Heap) (key : Str) (s2 : Slice) (vals : List Str)
    (hs2 : s2.read h2 = vals) : ∀ (es : List (Str × Slice)),
    (∀ e ∈ es, e.2.read h2 = e.2.read h) →
    (setSlice es key s2).map (fun e => (e.1, e.2.read h2))
      = GoMap.set (es.map (fun e => (e.1, e.2.read h))) key vals := by
  intro es
  induction es with
  | nil => intro _; simp [setSlice, GoMap.set, hs2]
  | cons hd tl ih =>
    intro hall
    obtain ⟨k0, s0⟩ := hd
    have htl : ∀ e ∈ tl, e.2.read h2 = e.2.read h :=
      fun e he => hall e (List.mem_cons_of_mem _ he)
    have hmap : tl.map (fun e => (e.1, e.2.read h2)) = tl.map (fun e => (e.1, e.2.read h)) :=
      List.map_congr_left (fun e he => by rw [htl e he])
    by_cases hk : k0 = key
    · simp [setSlice, GoMap.set, hk, hs2, hmap]
    · have h0 := hall (k0, s0) (List.mem_cons_self _ _)
      simp only at h0
      simp [setSlice, GoMap.set, hk, h0, ih htl]

/-- The headers after an append in place, when no two slices of the map share
storage: only the entry of the key reads differently. -/
theorem view_setSlice_inplace (h : Heap) (key : Str) (s : Slice) (v : Str)
    (hlt : s.len < s.cap) : ∀ (es : List (Str × Slice)),
    es.Pairwise (fun e1 e2 => e1.2.Apart e2.2) → (∀ e ∈ es, e.2.Valid h) →
    lookupSlice es key = some s →
    (setSlice es key ⟨s.arr, s.off, s.len + 1, s.cap⟩).map
        (fun e => (e.1, e.2.read (h.set s.arr ((h.getD s.arr []).set (s.off + s.len) v))))
      = GoMap.set (es.map (fun e => (e.1, e.2.read h))) key (s.read h ++ [v]) := by
  intro es
  induction es with
  | nil => intro _ _ hl; simp [lookupSlice] at hl
  | cons hd tl ih =>
    intro hpw hval hl
    obtain ⟨k0, s0⟩ := hd
    rw [List.pairwise_cons] at hpw
    obtain ⟨hhd, htl⟩ := hpw
    have hvtl : ∀ e ∈ tl, e.2.Valid h := fun e he => hval e (List.mem_cons_of_mem _ he)
    have hv0 : s0.Valid h := hval (k0, s0) (List.mem_cons_self _ _)
    by_cases hk : k0 = key
    · simp only [lookupSlice, hk, if_true, Option.some.injEq] at hl
      subst hl
      have hmap : tl.map (fun e => (e.1, e.2.read
            (h.set s0.arr ((h.getD s0.arr []).set (s0.off + s0.len) v))))
          = tl.map (fun e => (e.1, e.2.read h)) :=
        List.map_congr_left (fun e he => by
          rw [read_set_other hv0 (hvtl e he) hlt (hhd e he) v])
      simp only [setSlice, GoMap.set, List.map_cons, hk, if_true]
      rw [hmap, read_set_self hv0 hlt v]
    · simp only [lookupSlice, hk, if_false] at hl
      obtain ⟨e, he, hes⟩ := lookupSlice_mem hl
      have hsv : s.Valid h := by rw [← hes]; exact hvtl e he
      have hap : s.Apart s0 := by
        rw [← hes]
        exact apart_symm (hhd e he)
      simp only [setSlice, GoMap.set, List.map_cons, hk, if_false]
      rw [read_set_other hsv hv0 hlt hap v, ih htl hvtl hl]

theorem lookupSlice_valid {m : MemMap} (hwf : m.WellFormed) (key : Str) :
    ((lookupSlice m.entries key).getD nilSlice).Valid m.heap := by
  cases hl : lookupSlice m.entries key with
  | none => exact valid_nilSlice _
  | some s =>
    obtain ⟨e, he, hes⟩ := lookupSlice_mem hl
    simp only [Option.getD_some]
    rw [← hes]
    exact hwf e he

theorem lookupSlice_of_spare {es : List (Str × Slice)} {key : Str}
    (hlt : ((lookupSlice es key).getD nilSlice).len < ((lookupSlice es key).getD nilSlice).cap) :
    lookupSlice es key = some ((lookupSlice es key).getD nilSlice) := by
  cases hl : lookupSlice es key with
  | none =>
    rw [hl] at hlt
    simp [nilSlice] at hlt
  | some s => simp

/-- The slice that `append` returns after allocating reads as the old elements
followed by the new value. -/
theorem read_new_array (h : Heap) (old : List Str) (v : Str) (n : Nat) :
    Slice.read (h ++ [old ++ v :: List.replicate n []]) ⟨h.length, 0, old.length + 1, old.length + 1 + n⟩
      = old ++ [v] := by
  have hg : (h ++ [old ++ v :: List.replicate n []]).getD h.length []
      = old ++ v :: List.replicate n [] := by
    simp [List.getD_eq_getElem?_getD]
  simp only [Slice.read, hg, List.drop_zero]
  rw [List.take_append_eq_append_take]
  simp

/-- On a well-formed map whose slices share no storage, `Add` in memory is `Add`
on the mapping that the map denotes. -/
theorem memAdd_view (extra : Nat → Nat) (m : MemMap) (k v : Str) (hwf : m.WellFormed)
    (hna : m.NoAlias) :
    (m.Add extra k v).view = m.view.set k ((m.view.lookup k).getD [] ++ [v]) := by
  have hsv := lookupSlice_valid hwf k
  simp only [MemMap.view, MemMap.Add, goAppend]
  rw [view_lookup_getD]
  by_cases hlt : ((lookupSlice m.entries k).getD nilSlice).len
      < ((lookupSlice m.entries k).getD nilSlice).cap
  · rw [if_pos hlt]
    exact view_setSlice_inplace m.heap k _ v hlt m.entries hna hwf (lookupSlice_of_spare hlt)
  · rw [if_neg hlt]
    apply view_setSlice_all m.heap
    · have hlen := read_length hsv
      have := read_new_array m.heap (((lookupSlice m.entries k).getD nilSlice).read m.heap) v
        (extra ((lookupSlice m.entries k).getD nilSlice).len)
      rw [hlen] at this
      exact this
    · intro e he
      exact read_heap_append (hwf e he) _

/-- `Add` in memory keeps every slice of the map valid. -/
theorem memAdd_wellFormed (extra : Nat → Nat) (m : MemMap) (k v : Str) (hwf : m.WellFormed) :
    (m.Add extra k v).WellFormed := by
  have hsv := lookupSlice_valid hwf k
  intro e he
  simp only [MemMap.Add, goAppend] at he ⊢
  by_cases hlt : ((lookupSlice m.entries k).getD nilSlice).len
      < ((lookupSlice m.entries k).getD nilSlice).cap
  · rw [if_pos hlt] at he ⊢
    rcases mem_setSlice he with h1 | h1
    · exact valid_heap_set (hwf e h1) _ _ _
    · rw [h1]
      have := valid_heap_set hsv ((lookupSlice m.entries k).getD nilSlice).arr
        (((lookupSlice m.entries k).getD nilSlice).off
          + ((lookupSlice m.entries k).getD nilSlice).len) v
      obtain ⟨_, h3⟩ := this
      refine ⟨by simp only; omega, ?_⟩
      rcases h3 with h3 | h3
      · omega
      · exact Or.inr h3
  · rw [if_neg hlt] at he ⊢
    rcases mem_setSlice he with h1 | h1
    · exact valid_heap_append (hwf e h1) _
    · rw [h1]
      refine ⟨by simp only; omega, Or.inr ⟨by simp, ?_⟩⟩
      have hlen := read_length hsv
      simp only [List.getD_eq_getElem?_getD, List.length_append, le_refl,
        List.getElem?_append_right, Nat.sub_self, List.getElem?_cons_zero, Option.getD_some,
        List.length_cons, List.length_replicate, hlen, Nat.zero_add]
      omega

theorem pairwise_setSlice_same (key : Str) (s s2 : Slice)
    (hsame : ∀ x : Slice, s.Apart x → s2.Apart x) : ∀ (es : List (Str × Slice)),
    es.Pairwise (fun e1 e2 => e1.2.Apart e2.2) → lookupSlice es key = some s →
    (setSlice es key s2).Pairwise (fun e1 e2 => e1.2.Apart e2.2) := by
  intro es
  induction es with
  | nil => intro _ hl; simp [lookupSlice] at hl
  | cons hd tl ih =>
    intro hpw hl
    obtain ⟨k0, s0⟩ := hd
    rw [List.pairwise_cons] at hpw
    obtain ⟨hhd, htl⟩ := hpw
    by_cases hk : k0 = key
    · simp only [lookupSlice, hk, if_true, Option.some.injEq] at hl
      subst hl
      simp only [setSlice, hk, if_true]
      rw [List.pairwise_cons]
      exact ⟨fun e he => hsame _ (hhd e he), htl⟩
    · simp only [lookupSlice, hk, if_false] at hl
      simp only [setSlice, hk, if_false]
      rw [List.pairwise_cons]
      refine ⟨fun e he => ?_, ih htl hl⟩
      rcases mem_setSlice he with h1 | h1
      · exact hhd e h1
      · rw [h1]
        obtain ⟨e2, he2, hes⟩ := lookupSlice_mem hl
        have := hhd e2 he2
        rw [hes] at this
        exact apart_symm (hsame _ (apart_symm this))

theorem pairwise_setSlice_fresh (key : Str) (s2 : Slice) : ∀ (es : List (Str × Slice)),
    es.Pairwise (fun e1 e2 => e1.2.Apart e2.2) → (∀ e ∈ es, s2.Apart e.2) →
    (setSlice es key s2).Pairwise (fun e1 e2 => e1.2.Apart e2.2) := by
  intro es
  induction es with
  | nil => intro _ _; simp [setSlice]
  | cons hd tl ih =>
    intro hpw hfresh
    obtain ⟨k0, s0⟩ := hd
    rw [List.pairwise_cons] at hpw
    obtain ⟨hhd, htl⟩ := hpw
    have hftl : ∀ e ∈ tl, s2.Apart e.2 := fun e he => hfresh e (List.mem_cons_of_mem _ he)
    by_cases hk : k0 = key
    · simp only [setSlice, hk, if_true]
      rw [List.pairwise_cons]
      exact ⟨hftl, htl⟩
    · simp only [setSlice, hk, if_false]
      rw [List.pairwise_cons]
      refine ⟨fun e he => ?_, ih htl hftl⟩
      rcases mem_setSlice he with h1 | h1
      · exact hhd e h1
      · rw [h1]
        exact apart_symm (hfresh (k0, s0) (List.mem_cons_self _ _))

/-- `Add` in memory never makes two slices of the map share storage. -/
theorem memAdd_noAlias (extra : Nat → Nat) (m : MemMap) (k v : Str) (hwf : m.WellFormed)
    (hna : m.NoAlias) : (m.Add extra k v).NoAlias := by
  simp only [MemMap.NoAlias, MemMap.Add, goAppend]
  by_cases hlt : ((lookupSlice m.entries k).getD nilSlice).len
      < ((lookupSlice m.entries k).getD nilSlice).cap
  · rw [if_pos hlt]
    have hsame : ∀ x : Slice, ((lookupSlice m.entries k).getD nilSlice).Apart x →
        Slice.Apart ⟨((lookupSlice m.entries k).getD nilSlice).arr,
          ((lookupSlice m.entries k).getD nilSlice).off,
          ((lookupSlice m.entries k).getD nilSlice).len + 1,
          ((lookupSlice m.entries k).getD nilSlice).cap⟩ x := fun x hx => hx
    exact pairwise_setSlice_same k ((lookupSlice m.entries k).getD nilSlice) _ hsame
      m.entries hna (lookupSlice_of_spare hlt)
  · rw [if_neg hlt]
    apply pairwise_setSlice_fresh k _ m.entries hna
    intro e he
    obtain ⟨_, h2⟩ := hwf e he
    unfold Slice.Apart
    rcases h2 with h2 | ⟨h3, _⟩
    · exact Or.inr (Or.inl h2)
    · exact Or.inr (Or.inr (Or.inl (by simp only; omega)))

/-! ## The loop, one iteration at a time -/

/-- The loop is its body, followed, when the body reaches the step "skip the
semicolon" at the cursor `j`, by the loop from `j + 1` with one unit of fuel less. -/
theorem parseLoop_unfold (scan : Str → List Byte → Nat × Str × Option GoError) (s : Str)
    (f i : Nat) (args : Args) :
    parseLoop scan s (f + 1) i args =
      match loopBody scan s i args with
      | .error flt => .error flt
      | .ok (.ret r) => .ok r
      | .ok (.skip j args2) => parseLoop scan s f (j + 1) args2 := by
  rw [parseLoop]
  unfold loopBody
  dsimp only
  cases h1 : sliceFrom s i with
  | error flt => rfl
  | ok sub =>
    dsimp only
    rcases hsc : scan sub [cEq, cSemi] with ⟨offset, key, err⟩
    cases err with
    | some e => rfl
    | none =>
      dsimp only
      by_cases hge : i + offset ≥ s.length
      · rw [if_pos hge]
        dsimp only
        cases h2 : slice s i (i + offset) with
        | error flt => rfl
        | ok frag => rfl
      · rw [if_neg hge]
        cases h3 : index s (i + offset) with
        | error flt => rfl
        | ok c =>
          simp only [Except.map]
          by_cases hc : c = cEq
          · have hd : decide (c ≠ cEq) = false := by simp [hc]
            rw [hd]
            dsimp only
            cases h4 : sliceFrom s (i + offset + 1) with
            | error flt => rfl
            | ok sub2 =>
              dsimp only
              rcases hsc2 : scan sub2 [cSemi] with ⟨offset2, value, err2⟩
              cases err2 with
              | some e => rfl
              | none =>
                dsimp only
                by_cases hkey : key.length = 0
                · rw [if_pos hkey, if_pos hkey]
                  cases h5 : slice s i (i + offset + 1 + offset2) with
                  | error flt => rfl
                  | ok frag => rfl
                · rw [if_neg hkey, if_neg hkey]
                  cases h6 : args.Add key value with
                  | error flt => rfl
                  | ok args2 =>
                    dsimp only
                    by_cases hend : i + offset + 1 + offset2 ≥ s.length
                    · rw [if_pos hend, if_pos hend]
                    · rw [if_neg hend, if_neg hend]
          · have hd : decide (c ≠ cEq) = true := by simp [hc]
            rw [hd]
            dsimp only
            cases h2 : slice s i (i + offset) with
            | error flt => rfl
            | ok frag => rfl

theorem sliceFrom_ok {s : Str} {i : Nat} {sub : Str} (h : sliceFrom s i = .ok sub) :
    i ≤ s.length ∧ sub = s.drop i := by
  unfold sliceFrom at h
  split at h
  · simp only [Except.ok.injEq] at h
    exact ⟨by assumption, h.symm⟩
  · simp at h

/-- With the scanner of the source, an iteration that reaches the step "skip the
semicolon" does so with the cursor inside the text, past the cursor it started
from, and on a `';'`. -/
theorem loopBody_skip (s : Str) (i : Nat) (args : Args) (j : Nat) (args2 : Args)
    (h : loopBody indexUnescaped s i args = .ok (.skip j args2)) :
    i < j ∧ j < s.length ∧ s.get? j = some cSemi := by
  unfold loopBody at h
  dsimp only at h
  cases h1 : sliceFrom s i with
  | error flt => rw [h1] at h; simp at h
  | ok sub =>
    rw [h1] at h
    dsimp only at h
    rcases hsc : indexUnescaped sub [cEq, cSemi] with ⟨offset, key, err⟩
    rw [hsc] at h
    cases err with
    | some e => simp at h
    | none =>
      dsimp only at h
      by_cases hge : i + offset ≥ s.length
      · rw [if_pos hge] at h
        dsimp only at h
        cases h2 : slice s i (i + offset) with
        | error flt => rw [h2] at h; simp at h
        | ok frag => rw [h2] at h; simp at h
      · rw [if_neg hge] at h
        cases h3 : index s (i + offset) with
        | error flt => rw [h3] at h; simp [Except.map] at h
        | ok c =>
          rw [h3] at h
          simp only [Except.map] at h
          by_cases hc : c = cEq
          · have hd : decide (c ≠ cEq) = false := by simp [hc]
            rw [hd] at h
            dsimp only at h
            cases h4 : sliceFrom s (i + offset + 1) with
            | error flt => rw [h4] at h; simp at h
            | ok sub2 =>
              rw [h4] at h
              dsimp only at h
              rcases hsc2 : indexUnescaped sub2 [cSemi] with ⟨offset2, value, err2⟩
              rw [hsc2] at h
              cases err2 with
              | some e => simp at h
              | none =>
                dsimp only at h
                by_cases hkey : key.length = 0
                · rw [if_pos hkey] at h
                  cases h5 : slice s i (i + offset + 1 + offset2) with
                  | error flt => rw [h5] at h; simp at h
                  | ok frag => rw [h5] at h; simp at h
                · rw [if_neg hkey] at h
                  cases h6 : args.Add key value with
                  | error flt => rw [h6] at h; simp at h
                  | ok args3 =>
                    rw [h6] at h
                    dsimp only at h
                    by_cases hend : i + offset + 1 + offset2 ≥ s.length
                    · rw [if_pos hend] at h
                      simp at h
                    · rw [if_neg hend] at h
                      simp only [Except.ok.injEq, Iter.skip.injEq] at h
                      obtain ⟨hj, _⟩ := h
                      subst hj
                      obtain ⟨hle, hsub⟩ := sliceFrom_ok h4
                      subst hsub
                      have hlt2 : offset2 < (s.drop (i + offset + 1)).length := by
                        simp only [List.length_drop]
                        omega
                      obtain ⟨c2, hc2, hget⟩ :=
                        scan_stop_term [cSemi] _ offset2 value hsc2 hlt2
                      simp only [List.mem_singleton] at hc2
                      subst hc2
                      refine ⟨by omega, by omega, ?_⟩
                      rw [List.get?_eq_getElem?] at hget ⊢
                      rw [List.getElem?_drop] at hget
                      exact hget
          · have hd : decide (c ≠ cEq) = true := by simp [hc]
            rw [hd] at h
            dsimp only at h
            cases h2 : slice s i (i + offset) with
            | error flt => rw [h2] at h; simp at h
            | ok frag => rw [h2] at h; simp at h

/-- On mappings as values, `Add(k, v)` on a non-nil mapping returns, the value list
of `k` becomes its previous list (empty if `k` was absent) followed by `v`, and the
lookup of every other key, hence the set of other keys, is unchanged. Afterwards
`Get(k)` returns the old first value if there was one and `v` otherwise, and `Get`
of every other key is unchanged. -/
theorem add_appends_on_values (m : GoMap) (k v : Str) :
    ∃ m2, Args.Add (some m) k v = .ok (some m2) ∧
      m2.lookup k = some ((m.lookup k).getD [] ++ [v]) ∧
      (∀ k2, k2 ≠ k → m2.lookup k2 = m.lookup k2) ∧
      (∀ k2, k2 ≠ k → (k2 ∈ Args.keys (some m2) ↔ k2 ∈ Args.keys (some m))) ∧
      (∀ v0 vs, m.lookup k = some (v0 :: vs) → Args.Get (some m2) k = .ok (v0, true)) ∧
      ((m.lookup k = none ∨ m.lookup k = some []) → Args.Get (some m2) k = .ok (v, true)) ∧
      (∀ k2, k2 ≠ k → Args.Get (some m2) k2 = Args.Get (some m) k2) := by
  refine ⟨m.set k ((m.lookup k).getD [] ++ [v]), rfl, ?_, ?_, ?_, ?_, ?_, ?_⟩
  · simp [lookup_set]
  · intro k2 h
    have : ¬ (k = k2) := fun e => h e.symm
    simp [lookup_set, this]
  · intro k2 h
    have : ¬ (k = k2) := fun e => h e.symm
    rw [mem_keys_iff, mem_keys_iff, lookup_set, if_neg this]
  · intro v0 vs h
    apply get_first _ _ v0 (vs ++ [v])
    simp [lookup_set, h]
  · intro h
    apply get_first _ _ v []
    rcases h with h | h <;> simp [lookup_set, h]
  · intro k2 h
    have : ¬ (k = k2) := fun e => h e.symm
    apply get_congr
    simp [lookup_set, this]

/-! ## The claims -/

/-- C1: for every non-empty key `k` and every value `v`, parsing
`esc(k) ++ "=" ++ esc(v)` returns no error and the mapping whose only key is `k`,
with the value list `[v]`. -/
theorem C1_escape_round_trip (k v : Str) (hk : k ≠ []) :
    parseClientParameters (esc k ++ cEq :: esc v) = .ok (some [(k, [v])], none) :=
  parse_escaped_pair k v hk

/-- C1 at the inputs `a\;b=1` and `a=1\=2`. -/
theorem C1_escape_round_trip_witness :
    bytes "a;b" ≠ [] ∧
    parseClientParameters (bytes "a\\;b=1") = .ok (some [(bytes "a;b", [bytes "1"])], none) ∧
    parseClientParameters (bytes "a=1\\=2") = .ok (some [(bytes "a", [bytes "1=2"])], none) :=
  ⟨by decide, C1_escape_round_trip (bytes "a;b") (bytes "1") (by decide),
    C1_escape_round_trip (bytes "a") (bytes "1=2") (by decide)⟩

/-- C2: for every non-empty list of pairs with non-empty keys, parsing the escaped
entries joined by `';'` returns no error and the mapping that the calls
`Add(k1,v1)`, ..., `Add(kn,vn)` build from an empty `Args`: a key is present iff
it is one of the `ki`, and its values are the `vi` paired with it, in order. -/
theorem C2_multi_pair_accumulation (ps : List (Str × Str)) (hne : ps ≠ [])
    (hkeys : ∀ p ∈ ps, p.1 ≠ []) :
    ∃ m, parseClientParameters (encodePairs ps) = .ok (some m, none) ∧
      addAll Args.make ps = .ok (some m) ∧
      ∀ key, Args.lookup (some m) key =
        if key ∈ ps.map Prod.fst then some (valuesOf key ps) else none := by
  obtain ⟨m, h1, h2⟩ := parseFrom_encodePairs ps hne hkeys []
  obtain ⟨m2, h3, h4⟩ := addAll_lookup ps []
  have hm : m2 = m := by
    rw [h2] at h3
    simp only [Except.ok.injEq, Option.some.injEq] at h3
    exact h3.symm
  subst hm
  have hnonempty : encodePairs ps ≠ [] := by
    cases ps with
    | nil => exact absurd rfl hne
    | cons p tl =>
      cases tl with
      | nil => simp [encodePairs_single, encodePair]
      | cons q tl2 => simp [encodePairs_cons]
  refine ⟨m2, by rw [parse_nonempty _ hnonempty]; exact h1, h2, fun key => ?_⟩
  rw [Args.lookup, h4 key]
  by_cases hv : valuesOf key ps = []
  · have := (valuesOf_eq_nil key ps).mp hv
    simp [hv, this, GoMap.lookup]
  · have : key ∈ ps.map Prod.fst := by
      by_contra hc
      exact hv ((valuesOf_eq_nil key ps).mpr hc)
    simp [hv, this, GoMap.lookup]

/-- C2 at the pairs `(a,1)`, `(a,2)`, that is at the input `a=1;a=2`. -/
theorem C2_multi_pair_accumulation_witness :
    parseClientParameters (bytes "a=1;a=2") = .ok (some [(bytes "a", [bytes "1", bytes "2"])], none) ∧
    ∃ m, parseClientParameters (bytes "a=1;a=2") = .ok (some m, none) ∧
      addAll Args.make [(bytes "a", bytes "1"), (bytes "a", bytes "2")] = .ok (some m) ∧
      ∀ key, Args.lookup (some m) key =
        if key ∈ [bytes "a", bytes "a"]
        then some (valuesOf key [(bytes "a", bytes "1"), (bytes "a", bytes "2")]) else none :=
  ⟨rfl, C2_multi_pair_accumulation [(bytes "a", bytes "1"), (bytes "a", bytes "2")]
    (by simp) (by decide)⟩

/-- C3: when the terminator set does not contain the backslash, scanning
`escT(x) ++ tail`, where `tail` is empty or begins with a terminator, returns no
error, the stop index `len(escT(x))` and the decoded string `x`. -/
theorem C3_scanner_stops_at_first_unescaped_terminator (term : List Byte)
    (hbs : cBackslash ∉ term) (x tail : Str) (htail : StopsAt term tail) :
    indexUnescaped (escT term x ++ tail) term = ((escT term x).length, x, none) :=
  scan_consumes (consumes_escT term hbs x) tail htail

/-- C3 at `x = "a;b"` followed by `";c\"` with the terminators of a key. -/
theorem C3_scanner_stops_at_first_unescaped_terminator_witness :
    cBackslash ∉ [cEq, cSemi] ∧ StopsAt [cEq, cSemi] (bytes ";c\\") ∧
    indexUnescaped (bytes "a\\;b;c\\") [cEq, cSemi] = (4, bytes "a;b", none) :=
  ⟨by decide, Or.inr ⟨cSemi, bytes "c\\", rfl, by decide⟩,
    C3_scanner_stops_at_first_unescaped_terminator [cEq, cSemi] (by decide) (bytes "a;b")
      (bytes ";c\\") (Or.inr ⟨cSemi, bytes "c\\", rfl, by decide⟩)⟩

/-- C4, as stated, fails: on `a=1;b` the parser returns an error together with a
mapping that holds the pair decoded from the first entry. -/
theorem C4_mapping_returned_with_error_counterexample :
    parseClientParameters (bytes "a=1;b")
      = .ok (some [(bytes "a", [bytes "1"])], some (.missingEquals (bytes "b"))) ∧
    Args.lookup (some [(bytes "a", [bytes "1"])]) (bytes "a") = some [bytes "1"] ∧
    Args.keys (some [(bytes "a", [bytes "1"])]) ≠ [] :=
  ⟨rfl, rfl, by decide⟩

/-- C4, amended: when the parser returns an error, the mapping handed back with it
holds exactly the pairs decoded before the failing entry. It is the empty mapping
when the first entry fails; otherwise the input is `p ++ ";" ++ rest`, the failing
entry is the first one of `rest`, and the mapping is the one the parser returns,
without error, on the non-empty prefix `p`. -/
theorem C4_mapping_returned_with_error (s : Str) (a : Args) (e : GoError)
    (h : parseClientParameters s = .ok (a, some e)) :
    (a = Args.make ∧ ∀ args, parseLoop indexUnescaped s 1 0 args = .ok (args, some e)) ∨
    ∃ p rest, s = p ++ cSemi :: rest ∧ p ≠ [] ∧ parseClientParameters p = .ok (a, none) ∧
      ∀ args, parseLoop indexUnescaped rest 1 0 args = .ok (args, some e) := by
  have hs : s ≠ [] := by
    rintro rfl
    rw [parse_nil] at h
    simp at h
  rw [parse_nonempty s hs] at h
  rcases parseFrom_error_split s.length s le_rfl [] a e h with h1 | ⟨p, rest, rfl, hp, hpar, hf⟩
  · exact Or.inl h1
  · exact Or.inr ⟨p, rest, rfl, hp, by rw [parse_nonempty p hp]; exact hpar, hf⟩

/-- C4 amended, at the input `a=1;b`. -/
theorem C4_mapping_returned_with_error_witness :
    parseClientParameters (bytes "a=1;b")
      = .ok (some [(bytes "a", [bytes "1"])], some (.missingEquals (bytes "b"))) ∧
    ((some [(bytes "a", [bytes "1"])] = Args.make ∧ ∀ args,
        parseLoop indexUnescaped (bytes "a=1;b") 1 0 args
          = .ok (args, some (.missingEquals (bytes "b")))) ∨
      ∃ p rest, bytes "a=1;b" = p ++ cSemi :: rest ∧ p ≠ [] ∧
        parseClientParameters p = .ok (some [(bytes "a", [bytes "1"])], none) ∧
        ∀ args, parseLoop indexUnescaped rest 1 0 args
          = .ok (args, some (.missingEquals (bytes "b")))) :=
  ⟨rfl, C4_mapping_returned_with_error (bytes "a=1;b") _ _ rfl⟩

/-- C5: on the empty input the parser returns a nil error and the empty non-nil
mapping, whatever the scanner is: the scanner is not consulted. -/
theorem C5_empty_input :
    parseClientParameters [] = .ok (Args.make, none) ∧ Args.keys Args.make = [] ∧
    Args.make ≠ none ∧
    ∀ scan : Str → List Byte → Nat × Str × Option GoError,
      parseWith scan [] = .ok (Args.make, none) :=
  ⟨rfl, rfl, by simp [Args.make], fun _ => rfl⟩

/-- C6, as stated, fails for the empty `s`: the input `"="` is rejected with
`EmptyKey` instead of decoding to the pair `("", "")`. -/
theorem C6_plain_pair_counterexample :
    Plain [] ∧ Plain [] ∧
    parseClientParameters (([] : Str) ++ cEq :: []) = .ok (some [], some (.emptyKey [cEq])) ∧
    parseClientParameters (([] : Str) ++ cEq :: []) ≠ .ok (some [([], [[]])], none) :=
  ⟨by simp [Plain], by simp [Plain], rfl, by
    rw [show parseClientParameters (([] : Str) ++ cEq :: [])
      = .ok (some [], some (.emptyKey [cEq])) from rfl]
    simp⟩

/-- C6, amended: for every non-empty `s` and every `s2`, both free of `'='`, `';'`
and the backslash, parsing `s ++ "=" ++ s2` returns no error and the mapping with
the single key `s` and the value list `[s2]`. -/
theorem C6_plain_pair (s s2 : Str) (hs : Plain s) (hs2 : Plain s2) (hne : s ≠ []) :
    parseClientParameters (s ++ cEq :: s2) = .ok (some [(s, [s2])], none) := by
  have := parse_escaped_pair s s2 hne
  rwa [esc_plain s hs, esc_plain s2 hs2] at this

/-- C6 amended, at `s = "user"` and `s2 = "pw"`. -/
theorem C6_plain_pair_witness :
    Plain (bytes "user") ∧ Plain (bytes "pw") ∧ bytes "user" ≠ [] ∧
    parseClientParameters (bytes "user=pw") = .ok (some [(bytes "user", [bytes "pw"])], none) :=
  ⟨by decide, by decide, by decide,
    C6_plain_pair (bytes "user") (bytes "pw") (by decide) (by decide) (by decide)⟩

/-- C7: if the parser succeeds on `s` (the empty string included), then on
`s ++ ";"` it returns the error `MissingEquals` with the empty fragment. The
mapping handed back with the error is the one built from `s`. -/
theorem C7_trailing_separator_rejected (s : Str) (args : Args)
    (h : parseClientParameters s = .ok (args, none)) :
    parseClientParameters (s ++ [cSemi]) = .ok (args, some (.missingEquals [])) := by
  have hk : Consumes [cEq, cSemi] [] [] := .nil
  by_cases hs : s = []
  · subst hs
    rw [parse_nil] at h
    simp only [Except.ok.injEq, Prod.mk.injEq, and_true] at h
    subst h
    rfl
  · rw [parse_nonempty s hs] at h
    obtain ⟨m2, rfl, hrest⟩ := parseFrom_concat s.length s le_rfl [] args h
    rw [parse_nonempty _ (by simp), hrest []]
    exact parseLoop_missingEquals hk [] (Or.inl rfl) _ _

/-- C7 at the input `a=1`, and at the empty input. -/
theorem C7_trailing_separator_rejected_witness :
    parseClientParameters (bytes "a=1") = .ok (some [(bytes "a", [bytes "1"])], none) ∧
    parseClientParameters (bytes "a=1;")
      = .ok (some [(bytes "a", [bytes "1"])], some (.missingEquals [])) ∧
    parseClientParameters (bytes ";") = .ok (some [], some (.missingEquals [])) :=
  ⟨rfl, C7_trailing_separator_rejected (bytes "a=1") _ rfl,
    C7_trailing_separator_rejected [] _ rfl⟩

/-- C8: if the parser succeeds on `s` (the empty string included), then on `s`
followed by one backslash it returns `DanglingEscape`, and the fragment is the
text from the start of the segment being scanned to the end of the input: the
whole input `\` when `s` is empty, and otherwise the value segment `seg` of the
last entry `kraw=seg` of `s`, followed by the backslash. The mapping handed back
is the one built before that entry. -/
theorem C8_dangling_escape_rejected (s : Str) (args : Args)
    (h : parseClientParameters s = .ok (args, none)) :
    ∃ pre seg a0, s = pre ++ seg ∧
      parseClientParameters (s ++ [cBackslash])
        = .ok (a0, some (.danglingEscape (seg ++ [cBackslash]))) ∧
      ((s = [] ∧ a0 = Args.make) ∨
        ∃ q kraw k v, pre = q ++ (kraw ++ [cEq]) ∧ k ≠ [] ∧
          indexUnescaped (kraw ++ [cEq]) [cEq, cSemi] = (kraw.length, k, none) ∧
          indexUnescaped seg [cSemi] = (seg.length, v, none) ∧
          ((q = [] ∧ a0 = Args.make) ∨
            ∃ p, p ≠ [] ∧ q = p ++ [cSemi] ∧ parseClientParameters p = .ok (a0, none))) := by
  by_cases hs : s = []
  · subst hs
    exact ⟨[], [], Args.make, rfl, rfl, Or.inl ⟨rfl, rfl⟩⟩
  · rw [parse_nonempty s hs] at h
    obtain ⟨pre, kraw, k, vraw, v, a0, rfl, hk, hne, hv, hpre, hd⟩ :=
      parseFrom_dangling_split s.length s le_rfl [] args h
    refine ⟨pre ++ (kraw ++ [cEq]), vraw, a0, by simp, ?_, Or.inr ⟨pre, kraw, k, v, rfl, hne,
      scan_consumes hk [cEq] (stopsAt_eq []), ?_, ?_⟩⟩
    · rw [parse_nonempty _ (by simp)]
      exact hd
    · simpa using scan_consumes hv [] (Or.inl rfl)
    · rcases hpre with ⟨rfl, rfl⟩ | ⟨q, hq, rfl, hpar⟩
      · exact Or.inl ⟨rfl, rfl⟩
      · exact Or.inr ⟨q, hq, rfl, by rw [parse_nonempty q hq]; exact hpar⟩

/-- C8 at the input `a=1`: the input `a=1\` reports the fragment `1\`. -/
theorem C8_dangling_escape_rejected_witness :
    parseClientParameters (bytes "a=1\\") = .ok (some [], some (.danglingEscape (bytes "1\\"))) ∧
    ∃ pre seg a0, bytes "a=1" = pre ++ seg ∧
      parseClientParameters (bytes "a=1" ++ [cBackslash])
        = .ok (a0, some (.danglingEscape (seg ++ [cBackslash]))) ∧
      ((bytes "a=1" = [] ∧ a0 = Args.make) ∨
        ∃ q kraw k v, pre = q ++ (kraw ++ [cEq]) ∧ k ≠ [] ∧
          indexUnescaped (kraw ++ [cEq]) [cEq, cSemi] = (kraw.length, k, none) ∧
          indexUnescaped seg [cSemi] = (seg.length, v, none) ∧
          ((q = [] ∧ a0 = Args.make) ∨
            ∃ p, p ≠ [] ∧ q = p ++ [cSemi] ∧ parseClientParameters p = .ok (a0, none))) :=
  ⟨rfl, C8_dangling_escape_rejected (bytes "a=1") (some [(bytes "a", [bytes "1"])]) rfl⟩

/-- C9, as stated, fails for the empty prefix: the empty string parses, but after
`"" ++ ";"` the entry `=1` is not reached; the parser reports `MissingEquals` on
the empty fragment. -/
theorem C9_empty_key_counterexample :
    parseClientParameters [] = .ok (some [], none) ∧
    parseClientParameters (([] : Str) ++ cSemi :: cEq :: (escV (bytes "1") ++ []))
      = .ok (some [], some (.missingEquals [])) ∧
    parseClientParameters (([] : Str) ++ cSemi :: cEq :: (escV (bytes "1") ++ []))
      ≠ .ok (some [], some (.emptyKey (cEq :: escV (bytes "1")))) :=
  ⟨rfl, rfl, by
    rw [show parseClientParameters (([] : Str) ++ cSemi :: cEq :: (escV (bytes "1") ++ []))
      = .ok (some [], some (.missingEquals [])) from rfl]
    simp⟩

/-- C9, amended: an entry `"=" ++ escV(x)` followed by the end of the input or by a
`';'` is rejected with `EmptyKey` and the fragment `"=" ++ escV(x)`, both at the
start of the input and after a prefix `p ++ ";"` where `p` is non-empty and
parses; the mapping handed back is the one built before the entry. -/
theorem C9_empty_key_rejected (pre x rest : Str) (a : Args)
    (hpre : (pre = [] ∧ a = Args.make) ∨
      ∃ p, p ≠ [] ∧ pre = p ++ [cSemi] ∧ parseClientParameters p = .ok (a, none))
    (hrest : StopsAt [cSemi] rest) :
    parseClientParameters (pre ++ cEq :: (escV x ++ rest))
      = .ok (a, some (.emptyKey (cEq :: escV x))) := by
  rcases hpre with ⟨rfl, rfl⟩ | ⟨p, hp, rfl, h⟩
  · rw [parse_nonempty _ (by simp)]
    exact parseLoop_emptyKey (consumes_escV x) rest hrest _ _
  · rw [parse_nonempty p hp] at h
    obtain ⟨m2, rfl, hcat⟩ := parseFrom_concat p.length p le_rfl [] a h
    rw [parse_nonempty _ (by simp)]
    have := hcat (cEq :: (escV x ++ rest))
    simp only [List.append_assoc, List.singleton_append]
    rw [this]
    exact parseLoop_emptyKey (consumes_escV x) rest hrest _ _

/-- C9 amended, at the inputs `=1` and `a=b;=x\;y;c=d`. -/
theorem C9_empty_key_rejected_witness :
    parseClientParameters (bytes "=1") = .ok (some [], some (.emptyKey (bytes "=1"))) ∧
    parseClientParameters (bytes "a=b;=x\\;y;c=d")
      = .ok (some [(bytes "a", [bytes "b"])], some (.emptyKey (bytes "=x\\;y"))) :=
  ⟨C9_empty_key_rejected [] (bytes "1") [] _ (Or.inl ⟨rfl, rfl⟩) (Or.inl rfl),
    C9_empty_key_rejected (bytes "a=b;") (bytes "x;y") (bytes ";c=d") _
      (Or.inr ⟨bytes "a=b", by decide, rfl, rfl⟩) (Or.inr ⟨cSemi, bytes "c=d", rfl, by decide⟩)⟩

/-- C10: for every `x` and every `rest` that is empty or begins with `';'`, with
`esc(x) ++ rest` non-empty, the parser returns `MissingEquals` with the raw
fragment `esc(x)`. Moreover every non-empty input whose key scan does not stop at
an `'='` is rejected. -/
theorem C10_missing_equals_rejected (x rest : Str) (hrest : StopsAt [cSemi] rest)
    (hne : esc x ++ rest ≠ []) :
    parseClientParameters (esc x ++ rest) = .ok (some [], some (.missingEquals (esc x))) ∧
    ∀ s : Str, s ≠ [] → s.get? (indexUnescaped s [cEq, cSemi]).1 ≠ some cEq →
      ∃ e, parseClientParameters s = .ok (some [], some e) := by
  constructor
  · rw [parse_nonempty _ hne]
    exact parseLoop_missingEquals (consumes_esc_key x) rest hrest _ _
  · intro s hs hget
    rw [parse_nonempty s hs]
    rcases consumes_split [cEq, cSemi] s with ⟨kraw, k, tail, rfl, hk, ht⟩ | ⟨_, kraw, k, rfl, hk⟩
    · rw [scan_consumes hk tail ht] at hget
      have hst : StopsAt [cSemi] tail := by
        rcases ht with rfl | ⟨c, more, rfl, hc⟩
        · exact Or.inl rfl
        · refine Or.inr ⟨c, more, rfl, ?_⟩
          simp only [List.mem_cons, List.mem_singleton, List.not_mem_nil, or_false] at hc
          rcases hc with rfl | rfl
          · exfalso
            apply hget
            rw [List.get?_eq_getElem?, List.getElem?_append_right (le_refl _)]
            simp
          · simp
      exact ⟨_, parseLoop_missingEquals hk tail hst _ _⟩
    · exact ⟨_, parseLoop_danglingKey hk _ _⟩

/-- C10 at the inputs `abc`, `a;b=1` and `;`. -/
theorem C10_missing_equals_rejected_witness :
    parseClientParameters (bytes "abc") = .ok (some [], some (.missingEquals (bytes "abc"))) ∧
    parseClientParameters (bytes "a;b=1") = .ok (some [], some (.missingEquals (bytes "a"))) ∧
    parseClientParameters (bytes ";") = .ok (some [], some (.missingEquals [])) :=
  ⟨(C10_missing_equals_rejected (bytes "abc") [] (Or.inl rfl) (by decide)).1,
    (C10_missing_equals_rejected (bytes "a") (bytes ";b=1")
      (Or.inr ⟨cSemi, bytes "b=1", rfl, by decide⟩) (by decide)).1,
    (C10_missing_equals_rejected [] (bytes ";")
      (Or.inr ⟨cSemi, [], rfl, by decide⟩) (by decide)).1⟩

/-- C11: the invariant "every key present has at least one value" holds of the
empty mapping, is preserved by every `Add` that returns, and `Add` returns on
every non-nil mapping; hence it holds of the mapping of every successful parse,
which moreover never has the empty string as a key. Empty values are allowed:
`k=` yields `k -> [""]`. -/
theorem C11_mapping_invariant :
    Inv Args.make ∧
    (∀ (args : Args) (k v : Str) (args2 : Args),
      Inv args → args.Add k v = .ok args2 → Inv args2) ∧
    (∀ (m : GoMap) (k v : Str), ∃ m2, Args.Add (some m) k v = .ok (some m2)) ∧
    (∀ (s : Str) (a : Args), parseClientParameters s = .ok (a, none) →
      Inv a ∧ a.lookup [] = none ∧ [] ∉ Args.keys a) ∧
    parseClientParameters (bytes "k=") = .ok (some [(bytes "k", [[]])], none) := by
  refine ⟨?_, ?_, fun m k v => ⟨_, rfl⟩, ?_, rfl⟩
  · intro key vs h
    simp [Args.make, Args.lookup, GoMap.lookup] at h
  · intro args k v args2 hinv hadd
    cases args with
    | none => simp [Args.Add] at hadd
    | some m =>
      rw [add_some] at hadd
      simp only [Except.ok.injEq] at hadd
      subst hadd
      intro key vs h
      simp only [Args.lookup, lookup_set] at h
      by_cases hk : k = key
      · rw [if_pos hk] at h
        simp only [Option.some.injEq] at h
        subst h
        simp
      · rw [if_neg hk] at h
        exact hinv key vs h
  · intro s a h
    rcases parse_lookup s a h with ⟨_, rfl⟩ | ⟨ps, m, _, _, hkeys, rfl, _, hl, _⟩
    · refine ⟨?_, rfl, by simp [Args.make, Args.keys]⟩
      intro key vs h
      simp [Args.make, Args.lookup, GoMap.lookup] at h
    · have hnil : m.lookup [] = none := by
        rw [hl [], valuesOf_nil_key ps hkeys]
        simp
      refine ⟨?_, hnil, ?_⟩
      · intro key vs h
        simp only [Args.lookup] at h
        rw [hl key] at h
        by_cases hv : valuesOf key ps = []
        · simp [hv] at h
        · rw [if_neg hv] at h
          simp only [Option.some.injEq] at h
          subst h
          exact valuesOf_length_pos key ps hv
      · rw [mem_keys_iff]
        simp [hnil]

/-- C11 at the input `k=`: the parsed mapping satisfies the invariant, and adding
to it keeps the invariant. -/
theorem C11_mapping_invariant_witness :
    Inv (some [(bytes "k", [[]])]) ∧
    Inv (some [(bytes "k", [[], bytes "x"])]) :=
  ⟨(C11_mapping_invariant.2.2.2.1 (bytes "k=") (some [(bytes "k", [[]])]) rfl).1,
    C11_mapping_invariant.2.1 (some [(bytes "k", [[]])]) (bytes "k") (bytes "x") _
      (C11_mapping_invariant.2.2.2.1 (bytes "k=") (some [(bytes "k", [[]])]) rfl).1 rfl⟩

/-- C12: for every mapping (the nil one included) and every key, `Get` returns
the first value and `true` when the key has a non-empty value list, and the empty
string and `false` when the mapping is nil, the key is absent, or its list is
empty. `Get` always returns: `vals[0]` is never out of range, and `ok` is true iff
the key has at least one value. -/
theorem C12_get_first_value_or_absence (args : Args) (key : Str) :
    (∀ v vs, args.lookup key = some (v :: vs) → args.Get key = .ok (v, true)) ∧
    ((args = none ∨ args.lookup key = none ∨ args.lookup key = some []) →
      args.Get key = .ok ([], false)) ∧
    ∃ r, args.Get key = .ok r ∧ (r.2 = true ↔ ∃ v vs, args.lookup key = some (v :: vs)) := by
  refine ⟨?_, ?_, ?_⟩
  · intro v vs h
    rcases get_cases args key with ⟨v2, vs2, h2, hg⟩ | ⟨h2, _⟩
    · rw [h] at h2
      simp only [Option.some.injEq, List.cons.injEq] at h2
      rw [hg, h2.1]
    · rw [h] at h2
      simp at h2
  · intro h
    rcases get_cases args key with ⟨v2, vs2, h2, _⟩ | ⟨_, hg⟩
    · rcases h with rfl | h | h
      · simp [Args.lookup] at h2
      · rw [h] at h2; simp at h2
      · rw [h] at h2; simp at h2
    · exact hg
  · rcases get_cases args key with ⟨v2, vs2, h2, hg⟩ | ⟨h2, hg⟩
    · exact ⟨_, hg, by simp [h2]⟩
    · refine ⟨_, hg, ?_⟩
      rcases h2 with h2 | h2 <;> simp [h2]

/-- C12 at a key with two values, at an absent key, and on the nil mapping. -/
theorem C12_get_first_value_or_absence_witness :
    Args.Get (some [(bytes "a", [bytes "1", bytes "2"])]) (bytes "a") = .ok (bytes "1", true) ∧
    Args.Get (some [(bytes "a", [bytes "1", bytes "2"])]) (bytes "b") = .ok ([], false) ∧
    Args.Get none (bytes "a") = .ok ([], false) :=
  ⟨(C12_get_first_value_or_absence (some [(bytes "a", [bytes "1", bytes "2"])])
      (bytes "a")).1 (bytes "1") [bytes "2"] rfl,
    (C12_get_first_value_or_absence (some [(bytes "a", [bytes "1", bytes "2"])])
      (bytes "b")).2.1 (Or.inr (Or.inl rfl)),
    (C12_get_first_value_or_absence none (bytes "a")).2.1 (Or.inl rfl)⟩

/-- C13, as stated, fails on a map whose values share a backing array: in
`{"a": x, "b": x[:1]}` with `x = ["1", "2"]`, the call `Add("b", "3")` appends in
place, under any growth policy, and the value list of the other key `a` changes
from `["1", "2"]` to `["1", "3"]`. -/
theorem C13_add_appends_and_frames_counterexample :
    aliasedMap.WellFormed ∧
    aliasedMap.view = [(bytes "a", [bytes "1", bytes "2"]), (bytes "b", [bytes "1"])] ∧
    (∀ extra : Nat → Nat, (aliasedMap.Add extra (bytes "b") (bytes "3")).view
      = [(bytes "a", [bytes "1", bytes "3"]), (bytes "b", [bytes "1", bytes "3"])]) ∧
    ¬ (∀ k2, k2 ≠ bytes "b" →
      (aliasedMap.Add (fun n => n) (bytes "b") (bytes "3")).view.lookup k2
        = aliasedMap.view.lookup k2) := by
  refine ⟨by decide, rfl, fun _ => rfl, ?_⟩
  intro h
  have h2 := h (bytes "a") (by decide)
  have h3 : (aliasedMap.Add (fun n => n) (bytes "b") (bytes "3")).view.lookup (bytes "a")
      = some [bytes "1", bytes "3"] := rfl
  have h4 : aliasedMap.view.lookup (bytes "a") = some [bytes "1", bytes "2"] := rfl
  rw [h3, h4] at h2
  exact absurd h2 (by decide)

/-- C13, amended: on a non-nil map whose value slices are valid and share no
backing storage, as the empty map does and as `Add` preserves, `Add(k, v)` is the
`Add` of the mapping that the map denotes: the value list of `k` becomes its
previous list (empty if `k` was absent) followed by `v`, and the lookup of every
other key, hence the set of other keys, is unchanged. Afterwards `Get(k)` returns
the old first value if there was one and `v` otherwise, and `Get` of every other
key is unchanged. -/
theorem C13_add_appends_and_frames (extra : Nat → Nat) (m : MemMap) (k v : Str)
    (hwf : m.WellFormed) (hna : m.NoAlias) :
    Args.Add (some m.view) k v = .ok (some (m.Add extra k v).view) ∧
    (m.Add extra k v).WellFormed ∧ (m.Add extra k v).NoAlias ∧
    MemMap.make.WellFormed ∧ MemMap.make.NoAlias ∧
    (m.Add extra k v).view.lookup k = some ((m.view.lookup k).getD [] ++ [v]) ∧
    (∀ k2, k2 ≠ k → (m.Add extra k v).view.lookup k2 = m.view.lookup k2) ∧
    (∀ k2, k2 ≠ k →
      (k2 ∈ Args.keys (some (m.Add extra k v).view) ↔ k2 ∈ Args.keys (some m.view))) ∧
    (∀ v0 vs, m.view.lookup k = some (v0 :: vs) →
      Args.Get (some (m.Add extra k v).view) k = .ok (v0, true)) ∧
    ((m.view.lookup k = none ∨ m.view.lookup k = some []) →
      Args.Get (some (m.Add extra k v).view) k = .ok (v, true)) ∧
    (∀ k2, k2 ≠ k →
      Args.Get (some (m.Add extra k v).view) k2 = Args.Get (some m.view) k2) := by
  have hview := memAdd_view extra m k v hwf hna
  obtain ⟨m2, h1, h2, h3, h4, h5, h6, h7⟩ := add_appends_on_values m.view k v
  have hm2 : m2 = (m.Add extra k v).view := by
    rw [add_some] at h1
    simp only [Except.ok.injEq, Option.some.injEq] at h1
    rw [hview, h1]
  subst hm2
  exact ⟨h1, memAdd_wellFormed extra m k v hwf, memAdd_noAlias extra m k v hwf hna,
    by decide, by decide, h2, h3, h4, h5, h6, h7⟩

/-- C13 amended, at the map `{"a": ["1"]}` whose slice has room for one more
value: adding to `a` appends in place, adding to a new key `b` allocates. -/
theorem C13_add_appends_and_frames_witness :
    MemMap.WellFormed ⟨[[bytes "1", []]], [(bytes "a", ⟨0, 0, 1, 2⟩)]⟩ ∧
    MemMap.NoAlias ⟨[[bytes "1", []]], [(bytes "a", ⟨0, 0, 1, 2⟩)]⟩ ∧
    (MemMap.Add (fun n => n) ⟨[[bytes "1", []]], [(bytes "a", ⟨0, 0, 1, 2⟩)]⟩
        (bytes "a") (bytes "2")).view = [(bytes "a", [bytes "1", bytes "2"])] ∧
    (MemMap.Add (fun n => n) ⟨[[bytes "1", []]], [(bytes "a", ⟨0, 0, 1, 2⟩)]⟩
        (bytes "b") (bytes "2")).view = [(bytes "a", [bytes "1"]), (bytes "b", [bytes "2"])] ∧
    Args.Add (some (MemMap.view ⟨[[bytes "1", []]], [(bytes "a", ⟨0, 0, 1, 2⟩)]⟩))
        (bytes "b") (bytes "2")
      = .ok (some (MemMap.Add (fun n => n) ⟨[[bytes "1", []]], [(bytes "a", ⟨0, 0, 1, 2⟩)]⟩
          (bytes "b") (bytes "2")).view) ∧
    (∀ k2, k2 ≠ bytes "b" →
      (MemMap.Add (fun n => n) ⟨[[bytes "1", []]], [(bytes "a", ⟨0, 0, 1, 2⟩)]⟩
          (bytes "b") (bytes "2")).view.lookup k2
        = (MemMap.view ⟨[[bytes "1", []]], [(bytes "a", ⟨0, 0, 1, 2⟩)]⟩).lookup k2) :=
  ⟨by decide, by decide, rfl, rfl,
    (C13_add_appends_and_frames (fun n => n) ⟨[[bytes "1", []]], [(bytes "a", ⟨0, 0, 1, 2⟩)]⟩
      (bytes "b") (bytes "2") (by decide) (by decide)).1,
    (C13_add_appends_and_frames (fun n => n) ⟨[[bytes "1", []]], [(bytes "a", ⟨0, 0, 1, 2⟩)]⟩
      (bytes "b") (bytes "2") (by decide) (by decide)).2.2.2.2.2.2.1⟩

/-- C14: when the terminator set does not contain the backslash, the scanner
returns an error iff its input is `p` followed by one backslash, where the scan of
`p` succeeds with stop index `len(p)`. The error comes with stop index 0 and the
empty decoded string, and quotes the whole input. A final backslash that is itself
escaped, or that follows an unescaped terminator, is no error. -/
theorem C14_scanner_fails_exactly_on_dangling_escape (term : List Byte)
    (hbs : cBackslash ∉ term) (s : Str) :
    ((indexUnescaped s term).2.2 ≠ none ↔
      ∃ p d, s = p ++ [cBackslash] ∧ indexUnescaped p term = (p.length, d, none)) ∧
    ((indexUnescaped s term).2.2 ≠ none →
      indexUnescaped s term = (0, [], some (.danglingEscape s))) ∧
    indexUnescaped [cBackslash, cBackslash] term = (2, [cBackslash], none) ∧
    (∀ c ∈ term, indexUnescaped [c, cBackslash] term = (0, [], none)) := by
  refine ⟨⟨?_, ?_⟩, ?_, ?_, ?_⟩
  · intro h
    rcases scan_cases term s with ⟨raw, d, tail, rfl, _, _, hs⟩ | ⟨_, raw, d, rfl, hc, _⟩
    · rw [hs] at h
      simp at h
    · exact ⟨raw, d, rfl, (scan_full_iff term raw d).mpr hc⟩
  · rintro ⟨p, d, rfl, hp⟩
    rw [scan_consumes_dangling ((scan_full_iff term p d).mp hp) hbs]
    simp
  · intro h
    rcases scan_cases term s with ⟨raw, d, tail, rfl, _, _, hs⟩ | ⟨_, raw, d, rfl, _, hs⟩
    · rw [hs] at h
      simp at h
    · exact hs
  · have hc : Consumes term [cBackslash, cBackslash] [cBackslash] := .escaped hbs .nil
    simpa using scan_consumes hc [] (Or.inl rfl)
  · intro c hc
    have h0 : Consumes term [] [] := .nil
    simpa using scan_consumes h0 [c, cBackslash] (Or.inr ⟨c, [cBackslash], rfl, hc⟩)

/-- C14 with the terminator `';'`: the inputs `a\`, `\\` and `;\`. -/
theorem C14_scanner_fails_exactly_on_dangling_escape_witness :
    indexUnescaped (bytes "a\\") [cSemi] = (0, [], some (.danglingEscape (bytes "a\\"))) ∧
    indexUnescaped (bytes "\\\\") [cSemi] = (2, bytes "\\", none) ∧
    indexUnescaped (bytes ";\\") [cSemi] = (0, [], none) :=
  ⟨(C14_scanner_fails_exactly_on_dangling_escape [cSemi] (by decide) (bytes "a\\")).2.1
      (by decide),
    (C14_scanner_fails_exactly_on_dangling_escape [cSemi] (by decide) []).2.2.1,
    (C14_scanner_fails_exactly_on_dangling_escape [cSemi] (by decide) []).2.2.2 cSemi
      (by decide)⟩

/-- C15: when the terminator set does not contain the backslash, `p` is scanned to
its end, and `b` is neither a backslash nor a terminator, the scans of
`p ++ "\" ++ [b] ++ rest` and of `p ++ [b] ++ rest` both fail, or both succeed with
the same decoded string and stop indices that differ by exactly 1. There is no
translation table: `\n` decodes to the byte `n`, and the parser gives the same
mapping for `\a=\1` as for `a=1`. -/
theorem C15_optional_escapes_are_no_ops (term : List Byte) (hbs : cBackslash ∉ term)
    (p d : Str) (hp : indexUnescaped p term = (p.length, d, none))
    (b : Byte) (hb : b ∉ term) (hb2 : b ≠ cBackslash) (rest : Str) :
    (((indexUnescaped (p ++ cBackslash :: b :: rest) term).2.2 ≠ none ∧
        (indexUnescaped (p ++ b :: rest) term).2.2 ≠ none) ∨
      ((indexUnescaped (p ++ cBackslash :: b :: rest) term).2.2 = none ∧
        (indexUnescaped (p ++ b :: rest) term).2.2 = none ∧
        (indexUnescaped (p ++ cBackslash :: b :: rest) term).2.1
          = (indexUnescaped (p ++ b :: rest) term).2.1 ∧
        (indexUnescaped (p ++ cBackslash :: b :: rest) term).1
          = (indexUnescaped (p ++ b :: rest) term).1 + 1)) ∧
    indexUnescaped (bytes "\\n") [cSemi] = (2, bytes "n", none) ∧
    parseClientParameters (bytes "\\a=\\1") = parseClientParameters (bytes "a=1") := by
  refine ⟨?_, rfl, rfl⟩
  have hc := (scan_full_iff term p d).mp hp
  rcases consumes_split term rest with ⟨raw, d2, tail, rfl, hr, ht⟩ | ⟨_, raw, d2, rfl, hr⟩
  · right
    have e1 := scan_consumes (consumes_snoc_escaped hc b hbs hr) tail ht
    have e2 := scan_consumes (consumes_snoc_plain hc b hb hb2 hr) tail ht
    simp only [List.append_assoc, List.cons_append] at e1 e2
    rw [e1, e2]
    refine ⟨rfl, rfl, rfl, ?_⟩
    simp only [List.length_append, List.length_cons]
    omega
  · left
    have e1 := scan_consumes_dangling (consumes_snoc_escaped hc b hbs hr) hbs
    have e2 := scan_consumes_dangling (consumes_snoc_plain hc b hb hb2 hr) hbs
    simp only [List.append_assoc, List.cons_append] at e1 e2
    rw [e1, e2]
    simp

/-- C15 with the terminators of a key, `p = "x"`, `b = 'n'` and `rest = "y=z"`. -/
theorem C15_optional_escapes_are_no_ops_witness :
    indexUnescaped (bytes "x\\ny=z") [cEq, cSemi] = (4, bytes "xny", none) ∧
    indexUnescaped (bytes "xny=z") [cEq, cSemi] = (3, bytes "xny", none) ∧
    ((((indexUnescaped (bytes "x" ++ cBackslash :: 110 :: bytes "y=z") [cEq, cSemi]).2.2 ≠ none ∧
        (indexUnescaped (bytes "x" ++ 110 :: bytes "y=z") [cEq, cSemi]).2.2 ≠ none) ∨
      ((indexUnescaped (bytes "x" ++ cBackslash :: 110 :: bytes "y=z") [cEq, cSemi]).2.2 = none ∧
        (indexUnescaped (bytes "x" ++ 110 :: bytes "y=z") [cEq, cSemi]).2.2 = none ∧
        (indexUnescaped (bytes "x" ++ cBackslash :: 110 :: bytes "y=z") [cEq, cSemi]).2.1
          = (indexUnescaped (bytes "x" ++ 110 :: bytes "y=z") [cEq, cSemi]).2.1 ∧
        (indexUnescaped (bytes "x" ++ cBackslash :: 110 :: bytes "y=z") [cEq, cSemi]).1
          = (indexUnescaped (bytes "x" ++ 110 :: bytes "y=z") [cEq, cSemi]).1 + 1)) ∧
    indexUnescaped (bytes "\\n") [cSemi] = (2, bytes "n", none) ∧
    parseClientParameters (bytes "\\a=\\1") = parseClientParameters (bytes "a=1")) :=
  ⟨rfl, rfl, C15_optional_escapes_are_no_ops [cEq, cSemi] (by decide) (bytes "x") (bytes "x")
    rfl 110 (by decide) (by decide) (bytes "y=z")⟩

/-- C16: the parser terminates on every input. In every iteration that does not
return, whatever the scanner, the cursor moves at least two bytes forward (the
`'='` and the `';'`) and stays within the input; so fuel beyond the distance from
the cursor to the end of the input never runs out, the parser returns a result on
every input, and for a non-empty input `len(input)` iterations are enough. The
scanner, defined by recursion on the bytes of its input, stops at an index that is
at most `len(s)`. -/
theorem C16_termination :
    (∀ (scan : Str → List Byte → Nat × Str × Option GoError) (s : Str) (f i : Nat) (args : Args),
      (∃ flt, flt ≠ Fault.outOfFuel ∧ parseLoop scan s (f + 1) i args = .error flt) ∨
      (∃ r, parseLoop scan s (f + 1) i args = .ok r) ∨
      (∃ i2 args2, i + 2 ≤ i2 ∧ i2 ≤ s.length ∧
        parseLoop scan s (f + 1) i args = parseLoop scan s f i2 args2)) ∧
    (∀ (scan : Str → List Byte → Nat × Str × Option GoError) (s : Str) (g i : Nat) (args : Args),
      s.length ≤ g + i → parseLoop scan s (g + 1) i args ≠ .error .outOfFuel) ∧
    (∀ s : Str, ∃ a e, parseClientParameters s = .ok (a, e)) ∧
    (∀ (s : Str) (f : Nat), s ≠ [] → s.length ≤ f →
      parseLoop indexUnescaped s f 0 Args.make = parseClientParameters s) ∧
    (∀ (s : Str) (term : List Byte), (indexUnescaped s term).1 ≤ s.length) := by
  refine ⟨parseLoop_step, parseLoop_fuel_enough, parse_returns, ?_, fun s term => scan_stop_le term s⟩
  intro s f hs hf
  have h1 : 1 ≤ f := by
    have : 0 < s.length := List.length_pos.mpr hs
    omega
  rw [parse_nonempty s hs]
  exact parseLoop_fuel_len s.length s le_rfl f [] h1 hf

/-- C16 at the 7-byte input `a=1;b=2`: seven units of fuel are enough, eight do
not run out, and the parser returns. -/
theorem C16_termination_witness :
    parseLoop indexUnescaped (bytes "a=1;b=2") 7 0 Args.make
      = parseClientParameters (bytes "a=1;b=2") ∧
    parseLoop indexUnescaped (bytes "a=1;b=2") 8 0 Args.make ≠ .error .outOfFuel ∧
    parseClientParameters (bytes "a=1;b=2")
      = .ok (some [(bytes "a", [bytes "1"]), (bytes "b", [bytes "2"])], none) :=
  ⟨C16_termination.2.2.2.1 (bytes "a=1;b=2") 7 (by decide) (by decide),
    C16_termination.2.1 indexUnescaped (bytes "a=1;b=2") 7 0 Args.make (by decide), rfl⟩

/-- C17: with the cursor within the input and a non-nil mapping, the loop never
panics, at any amount of fuel: every `input[i:]`, `input[i]` and `input[begin:i]`
it evaluates is in range, so the parser returns on every input without an index
or slice fault. A scan started at a cursor within the input stops within the
input, and when the value scan stops short of the end, the byte at the stop is
`';'`. The loop, for every scanner, is its body followed, when the body reaches the
step "skip the semicolon" at the cursor `j`, by the loop from `j + 1`; and with the
scanner of the source the body reaches that step only with `j` past the cursor it
started from, inside the input, and with `input[j]` equal to `';'`. -/
theorem C17_cursor_in_range_and_separator :
    (∀ (s : Str) (f i : Nat) (m : GoMap) (flt : Fault), i ≤ s.length →
      parseLoop indexUnescaped s f i (some m) = .error flt → flt = .outOfFuel) ∧
    (∀ s : Str, parseClientParameters s ≠ .error .indexOutOfRange ∧
      parseClientParameters s ≠ .error .nilMapWrite) ∧
    (∀ (s : Str) (i : Nat) (term : List Byte), i ≤ s.length →
      i + (indexUnescaped (s.drop i) term).1 ≤ s.length) ∧
    (∀ (s : Str) (i off : Nat) (v : Str), i ≤ s.length →
      indexUnescaped (s.drop i) [cSemi] = (off, v, none) → i + off < s.length →
      s.get? (i + off) = some cSemi) ∧
    (∀ (scan : Str → List Byte → Nat × Str × Option GoError) (s : Str) (f i : Nat) (args : Args),
      parseLoop scan s (f + 1) i args =
        match loopBody scan s i args with
        | .error flt => .error flt
        | .ok (.ret r) => .ok r
        | .ok (.skip j args2) => parseLoop scan s f (j + 1) args2) ∧
    (∀ (s : Str) (i : Nat) (args : Args) (j : Nat) (args2 : Args),
      loopBody indexUnescaped s i args = .ok (.skip j args2) →
      i < j ∧ j < s.length ∧ s.get? j = some cSemi) := by
  refine ⟨fun s f i m flt hi h => parseLoop_no_panic_from s f i m hi flt h, ?_, ?_, ?_,
    parseLoop_unfold, loopBody_skip⟩
  · intro s
    obtain ⟨a, e, h⟩ := parse_returns s
    rw [h]
    simp
  · intro s i term hi
    have := scan_stop_le term (s.drop i)
    simp only [List.length_drop] at this
    omega
  · intro s i off v hi h hlt
    have hlt2 : off < (s.drop i).length := by
      simp only [List.length_drop]
      omega
    obtain ⟨c, hc, hget⟩ := scan_stop_term [cSemi] (s.drop i) off v h hlt2
    simp only [List.mem_singleton] at hc
    subst hc
    rw [List.get?_eq_getElem?] at hget ⊢
    rw [List.getElem?_drop] at hget
    exact hget

/-- C17 at the input `a=1=2;b=3`: the first iteration reaches the step "skip the
semicolon" at the cursor 5, on the `';'` and not on the `'='` at index 3, and the
loop goes on from the cursor 6. -/
theorem C17_cursor_in_range_and_separator_witness :
    loopBody indexUnescaped (bytes "a=1=2;b=3") 0 Args.make
      = .ok (.skip 5 (some [(bytes "a", [bytes "1=2"])])) ∧
    (0 < 5 ∧ 5 < (bytes "a=1=2;b=3").length ∧ (bytes "a=1=2;b=3").get? 5 = some cSemi) ∧
    parseLoop indexUnescaped (bytes "a=1=2;b=3") 10 0 Args.make
      = parseLoop indexUnescaped (bytes "a=1=2;b=3") 9 6 (some [(bytes "a", [bytes "1=2"])]) ∧
    indexUnescaped ((bytes "a=1=2;b=3").drop 2) [cSemi] = (3, bytes "1=2", none) ∧
    (bytes "a=1=2;b=3").get? (2 + 3) = some cSemi ∧
    parseClientParameters (bytes "a=1=2;b=3") ≠ .error .indexOutOfRange :=
  ⟨rfl,
    C17_cursor_in_range_and_separator.2.2.2.2.2 (bytes "a=1=2;b=3") 0 Args.make 5
      (some [(bytes "a", [bytes "1=2"])]) rfl,
    C17_cursor_in_range_and_separator.2.2.2.2.1 indexUnescaped (bytes "a=1=2;b=3") 9 0 Args.make,
    rfl,
    C17_cursor_in_range_and_separator.2.2.2.1 (bytes "a=1=2;b=3") 2 3 (bytes "1=2") (by decide)
      rfl (by decide),
    (C17_cursor_in_range_and_separator.2.1 (bytes "a=1=2;b=3")).1⟩

/-- C18: for every non-empty key `k` free of `'='`, `';'` and the backslash, and
every value `v` free of `';'` and the backslash (it may hold any number of `'='`),
parsing `k ++ "=" ++ v` returns no error and the mapping `k -> [v]`. -/
theorem C18_unescaped_equals_in_value_is_literal (k v : Str) (hk : Plain k) (hne : k ≠ [])
    (hv : ∀ b ∈ v, b ∉ [cSemi, cBackslash]) :
    parseClientParameters (k ++ cEq :: v) = .ok (some [(k, [v])], none) := by
  have hkc : Consumes [cEq, cSemi] k k := by
    have := consumes_esc_key k
    rwa [esc_plain k hk] at this
  rw [parse_nonempty _ (by simp), parseFrom_last hkc hne (consumes_value_plain v hv)]
  simp [GoMap.set, GoMap.lookup]

/-- C18 at the input `a=1=2`, which decodes like the escaped form `a=1\=2`. -/
theorem C18_unescaped_equals_in_value_is_literal_witness :
    parseClientParameters (bytes "a=1=2") = .ok (some [(bytes "a", [bytes "1=2"])], none) ∧
    parseClientParameters (bytes "a=1=2") = parseClientParameters (bytes "a=1\\=2") :=
  ⟨C18_unescaped_equals_in_value_is_literal (bytes "a") (bytes "1=2") (by decide) (by decide)
    (by decide), rfl⟩

/-- C19: an entry that starts with an unescaped `'='`, at the start of the input
or after a non-empty prefix that parses and a `';'`, has its value scanned before
the key is checked: if the value scan fails, the parser returns that
`DanglingEscape` error, which quotes the text after the `'='`; only if the value
scan succeeds does it return `EmptyKey`, with the fragment made of the `'='` and
the scanned value segment. -/
theorem C19_value_scanned_before_empty_key_check (pre rest : Str) (a : Args)
    (hpre : (pre = [] ∧ a = Args.make) ∨
      ∃ p, p ≠ [] ∧ pre = p ++ [cSemi] ∧ parseClientParameters p = .ok (a, none)) :
    ((indexUnescaped rest [cSemi]).2.2 ≠ none →
      parseClientParameters (pre ++ cEq :: rest) = .ok (a, some (.danglingEscape rest))) ∧
    ((indexUnescaped rest [cSemi]).2.2 = none →
      parseClientParameters (pre ++ cEq :: rest)
        = .ok (a, some (.emptyKey (cEq :: rest.take (indexUnescaped rest [cSemi]).1)))) := by
  have key : ∃ m, a = some m ∧ parseClientParameters (pre ++ cEq :: rest)
      = parseFrom (cEq :: rest) m := by
    rcases hpre with ⟨rfl, rfl⟩ | ⟨p, hp, rfl, h⟩
    · exact ⟨[], rfl, by rw [parse_nonempty _ (by simp)]; simp⟩
    · rw [parse_nonempty p hp] at h
      obtain ⟨m2, rfl, hcat⟩ := parseFrom_concat p.length p le_rfl [] a h
      refine ⟨m2, rfl, ?_⟩
      rw [parse_nonempty _ (by simp)]
      simpa using hcat (cEq :: rest)
  obtain ⟨m, rfl, hpar⟩ := key
  rw [hpar]
  rcases parseFrom_empty_key rest m with ⟨e, h1, h2, h3⟩ | ⟨h1, h3⟩
  · subst h2
    exact ⟨fun _ => h3, fun h => by rw [h1] at h; simp at h⟩
  · exact ⟨fun h => absurd h1 h, fun _ => h3⟩

/-- C19 at the inputs `=\` and `=1`, and after the prefix `a=b;`. -/
theorem C19_value_scanned_before_empty_key_check_witness :
    parseClientParameters (bytes "=\\") = .ok (some [], some (.danglingEscape (bytes "\\"))) ∧
    parseClientParameters (bytes "=1") = .ok (some [], some (.emptyKey (bytes "=1"))) ∧
    parseClientParameters (bytes "a=b;=1;c=d")
      = .ok (some [(bytes "a", [bytes "b"])], some (.emptyKey (bytes "=1"))) :=
  ⟨(C19_value_scanned_before_empty_key_check [] (bytes "\\") _ (Or.inl ⟨rfl, rfl⟩)).1 (by decide),
    (C19_value_scanned_before_empty_key_check [] (bytes "1") _ (Or.inl ⟨rfl, rfl⟩)).2 rfl,
    (C19_value_scanned_before_empty_key_check (bytes "a=b;") (bytes "1;c=d") _
      (Or.inr ⟨bytes "a=b", by decide, rfl, rfl⟩)).2 rfl⟩

/-- C20: if the parser succeeds on `s1` and on `s2`, both non-empty, then it
succeeds on `s1 ++ ";" ++ s2`, and in the result every key maps to its values from
`s1` followed by its values from `s2` (a missing key counting as the empty list),
the key set being the union of the two key sets. If `s1` or `s2` is empty, the
parser fails on `s1 ++ ";" ++ s2`. -/
theorem C20_concatenation_homomorphism (s1 s2 : Str) (a1 a2 : Args)
    (h1 : parseClientParameters s1 = .ok (a1, none))
    (h2 : parseClientParameters s2 = .ok (a2, none)) :
    (s1 ≠ [] → s2 ≠ [] →
      ∃ m, parseClientParameters (s1 ++ cSemi :: s2) = .ok (some m, none) ∧
        (∀ key, m.lookup key = mergeVals (a1.lookup key) (a2.lookup key)) ∧
        ∀ key, key ∈ Args.keys (some m) ↔ key ∈ Args.keys a1 ∨ key ∈ Args.keys a2) ∧
    ((s1 = [] ∨ s2 = []) →
      ∃ a e, parseClientParameters (s1 ++ cSemi :: s2) = .ok (a, some e)) := by
  constructor
  · intro hs1 hs2
    rcases parse_lookup s1 a1 h1 with ⟨hnil, _⟩ | ⟨_, m1, _, _, _, rfl, _, _, _⟩
    · exact absurd hnil hs1
    rcases parse_lookup s2 a2 h2 with ⟨hnil, _⟩ | ⟨ps, m2, _, _, _, rfl, _, hl2, hall⟩
    · exact absurd hnil hs2
    rw [parse_nonempty s1 hs1] at h1
    obtain ⟨m1b, hm1, hcat⟩ := parseFrom_concat s1.length s1 le_rfl [] _ h1
    simp only [Option.some.injEq] at hm1
    subst hm1
    obtain ⟨m, hpar, hl⟩ := hall m1
    have hmerge : ∀ key, m.lookup key = mergeVals (m1.lookup key) (m2.lookup key) := by
      intro key
      rw [hl key, hl2 key]
      by_cases hv : valuesOf key ps = []
      · simp [hv, mergeVals_none_right]
      · simp [hv, mergeVals_some_right]
    refine ⟨m, ?_, hmerge, fun key => ?_⟩
    · rw [parse_nonempty _ (by simp), hcat s2]
      exact hpar
    · rw [mem_keys_iff, mem_keys_iff, mem_keys_iff, hmerge key, Ne, mergeVals_eq_none]
      tauto
  · intro h
    by_cases hs1 : s1 = []
    · subst hs1
      refine ⟨some [], .missingEquals [], ?_⟩
      rw [parse_nonempty _ (by simp)]
      exact parseFrom_leading_semi s2 []
    · have hs2 : s2 = [] := by tauto
      subst hs2
      rw [parse_nonempty s1 hs1] at h1
      obtain ⟨m1, _, hcat⟩ := parseFrom_concat s1.length s1 le_rfl [] _ h1
      refine ⟨some m1, .missingEquals [], ?_⟩
      rw [parse_nonempty _ (by simp), hcat [], parseFrom_nil]

/-- C20 at `s1 = "a=1;b=2"` and `s2 = "a=3;c=4"`, and at an empty `s2`. -/
theorem C20_concatenation_homomorphism_witness :
    parseClientParameters (bytes "a=1;b=2;a=3;c=4")
      = .ok (some [(bytes "a", [bytes "1", bytes "3"]), (bytes "b", [bytes "2"]),
          (bytes "c", [bytes "4"])], none) ∧
    (∃ m, parseClientParameters (bytes "a=1;b=2" ++ cSemi :: bytes "a=3;c=4") = .ok (some m, none) ∧
      (∀ key, m.lookup key
        = mergeVals (Args.lookup (some [(bytes "a", [bytes "1"]), (bytes "b", [bytes "2"])]) key)
            (Args.lookup (some [(bytes "a", [bytes "3"]), (bytes "c", [bytes "4"])]) key)) ∧
      ∀ key, key ∈ Args.keys (some m) ↔
        key ∈ Args.keys (some [(bytes "a", [bytes "1"]), (bytes "b", [bytes "2"])]) ∨
        key ∈ Args.keys (some [(bytes "a", [bytes "3"]), (bytes "c", [bytes "4"])])) ∧
    ∃ a e, parseClientParameters (bytes "a=1" ++ cSemi :: []) = .ok (a, some e) :=
  ⟨rfl,
    (C20_concatenation_homomorphism (bytes "a=1;b=2") (bytes "a=3;c=4") _ _ rfl rfl).1
      (by decide) (by decide),
    (C20_concatenation_homomorphism (bytes "a=1") [] _ _ rfl rfl).2 (Or.inr rfl)⟩

end pt
